import Mathlib

/-!
Verification development for the Sidelith "Data Fabric" knowledge-graph store:
the `SovereignScrubber` (scrubber.py) and the `GraphKernel` (graph_kernel.py).
Strings are modelled as `List Char`; the five redaction regexes are embedded as
deterministic item sequences (each of the five patterns is free of genuine
backtracking: every quantifier is followed either by nothing, by a word
boundary, or by a literal/class disjoint from the quantified class, so the
greedy scan below computes exactly the Python `re` match).
-/

set_option maxRecDepth 4000

namespace Fabric

/-- ASCII lower-cased code point, as `re.IGNORECASE` folds the ASCII range. -/
def lowerN (c : Char) : Nat :=
  if 'A' ≤ c ∧ c ≤ 'Z' then c.toNat + 32 else c.toNat

/-- Case-insensitive character equality (code points compared after ASCII
case folding). -/
def ciEq (a b : Char) : Bool := lowerN a == lowerN b

/-- ASCII decimal digit (regex `\d` on ASCII input). -/
def isDigitC (c : Char) : Bool := '0' ≤ c && c ≤ '9'

/-- ASCII letter. -/
def isAlphaC (c : Char) : Bool := ('a' ≤ c && c ≤ 'z') || ('A' ≤ c && c ≤ 'Z')

/-- ASCII letter or digit. -/
def isAlnumC (c : Char) : Bool := isAlphaC c || isDigitC c

/-- Regex `\w` (word character) on ASCII input. -/
def isWordC (c : Char) : Bool := isAlnumC c || c == '_'

/-- Regex `\s` on ASCII input. -/
def isSpaceC (c : Char) : Bool :=
  c == ' ' || c == '\t' || c == '\n' || c == '\x0d' || c == '\x0b' || c == '\x0c'

/-- Character class `[a-zA-Z0-9_.+-]` (e-mail local part). -/
def emailLocalC (c : Char) : Bool :=
  isAlnumC c || c == '_' || c == '.' || c == '+' || c == '-'

/-- Character class `[a-zA-Z0-9-]` (e-mail domain label). -/
def emailDomC (c : Char) : Bool := isAlnumC c || c == '-'

/-- Character class `[a-zA-Z0-9-.]` (e-mail domain tail). -/
def emailDom2C (c : Char) : Bool := isAlnumC c || c == '-' || c == '.'

/-- Character class `[A-Za-z0-9\-\._~\+\/]` (bearer token body). -/
def bearerTokC (c : Char) : Bool :=
  isAlnumC c || c == '-' || c == '.' || c == '_' || c == '~' || c == '+' || c == '/'

/-- Character class `[0-9A-Z]` under `re.IGNORECASE`, i.e. any ASCII alphanumeric. -/
def awsBodyC (c : Char) : Bool := isAlnumC c

/-- Character class `[A-Za-z0-9_\-]` (generic secret value). -/
def secretValC (c : Char) : Bool := isAlnumC c || c == '_' || c == '-'

/-- Character class `["\']` (optional quote around a secret value). -/
def quoteC (c : Char) : Bool := c == '"' || c == Char.ofNat 39

/-- Character class `[:=]`. -/
def colonEqC (c : Char) : Bool := c == ':' || c == '='

/-- One item of a compiled pattern: a case-insensitive literal, a
case-insensitive alternation of literals, a greedy class run with
multiplicity bounds, or a word boundary `\b`. -/
inductive RItem where
  | lit (w : List Char)
  | alts (ws : List (List Char))
  | cls (p : Char → Bool) (lo : Nat) (hi : Option Nat)
  | wb
deriving Inhabited

/-- Strips the case-insensitive literal `w` from the front of `l`, returning the rest. -/
def stripCi : List Char → List Char → Option (List Char)
  | [], l => some l
  | _ :: _, [] => none
  | c :: w, x :: l => if ciEq c x then stripCi w l else none

/-- The maximal leading run of characters of `l` satisfying `p`. -/
def takeRun (p : Char → Bool) : List Char → List Char
  | [] => []
  | c :: l => if p c then c :: takeRun p l else []

/-- What remains of `l` after its maximal leading `p`-run. -/
def dropRun (p : Char → Bool) : List Char → List Char
  | [] => []
  | c :: l => if p c then dropRun p l else c :: l

/-- Word boundary test between an optional previous character and an optional next one. -/
def boundaryB (prev next : Option Char) : Bool :=
  (match prev with | some c => isWordC c | none => false) !=
  (match next with | some c => isWordC c | none => false)

/-- The last character of `consumed`, falling back to `prev` when nothing was consumed. -/
def lastC (prev : Option Char) : List Char → Option Char
  | [] => prev
  | c :: l => lastC (some c) l

/-- First alternative of `ws` that is a case-insensitive prefix of `l`
(the five alternatives of the generic-secret pattern are pairwise
non-prefix, so at most one can apply and Python's ordered try agrees). -/
def firstAlt : List (List Char) → List Char → Option (List Char × List Char)
  | [], _ => none
  | w :: ws, l =>
    match stripCi w l with
    | some rest => some (l.take w.length, rest)
    | none => firstAlt ws l

/-- Matches an item sequence at the start of `l` (with `prev` the character
just before `l`, for `\b`). Returns `(consumed, rest)` on success. Greedy
class runs consume `min (run length) hi` characters and never backtrack,
which coincides with Python `re` on the five patterns used here. -/
def matchItems : List RItem → Option Char → List Char → Option (List Char × List Char)
  | [], _, l => some ([], l)
  | .lit w :: items, prev, l =>
    match stripCi w l with
    | none => none
    | some rest =>
      let c := l.take w.length
      match matchItems items (lastC prev c) rest with
      | none => none
      | some (c2, r2) => some (c ++ c2, r2)
  | .alts ws :: items, prev, l =>
    match firstAlt ws l with
    | none => none
    | some (c, rest) =>
      match matchItems items (lastC prev c) rest with
      | none => none
      | some (c2, r2) => some (c ++ c2, r2)
  | .cls p lo hi :: items, prev, l =>
    let run := takeRun p l
    let rest := dropRun p l
    if run.length < lo then none
    else
      let t := match hi with | none => run.length | some h => min run.length h
      let c := run.take t
      match matchItems items (lastC prev c) (run.drop t ++ rest) with
      | none => none
      | some (c2, r2) => some (c ++ c2, r2)
  | .wb :: items, prev, l =>
    if boundaryB prev l.head? then matchItems items prev l else none

/-- Scans `l` left to right for the first position where `pat` matches,
returning `(skipped, consumed, rest)` with `l = skipped ++ consumed ++ rest`. -/
def findMatch (pat : List RItem) : Option Char → List Char → Option (List Char × List Char × List Char)
  | prev, l =>
    match matchItems pat prev l with
    | some (c, r) => some ([], c, r)
    | none =>
      match l with
      | [] => none
      | x :: l2 =>
        match findMatch pat (some x) l2 with
        | some (s, c, r) => some (x :: s, c, r)
        | none => none

/-- Replaces every (leftmost, non-overlapping) match of `pat` in `l` by `ph`,
continuing the scan after each match, exactly as `re.sub` does. `fuel` bounds
the number of replacements; every call below supplies `l.length + 1`, which
cannot be exhausted since every match of the five patterns is nonempty. -/
def subAllF : Nat → List RItem → List Char → Option Char → List Char → List Char
  | 0, _, _, _, l => l
  | fuel + 1, pat, ph, prev, l =>
    match findMatch pat prev l with
    | none => l
    | some (s, c, r) => s ++ ph ++ subAllF fuel pat ph (lastC (lastC prev s) c) r

/-- Pattern `email`: `[a-zA-Z0-9_.+-]+@[a-zA-Z0-9-]+\.[a-zA-Z0-9-.]+`. -/
def emailPat : List RItem :=
  [.cls emailLocalC 1 none, .lit ['@'], .cls emailDomC 1 none, .lit ['.'],
   .cls emailDom2C 1 none]

/-- Pattern `ip`: `\b\d{1,3}\.\d{1,3}\.\d{1,3}\.\d{1,3}\b`. -/
def ipPat : List RItem :=
  [.wb, .cls isDigitC 1 (some 3), .lit ['.'], .cls isDigitC 1 (some 3), .lit ['.'],
   .cls isDigitC 1 (some 3), .lit ['.'], .cls isDigitC 1 (some 3), .wb]

/-- Pattern `bearer_token`: `Bearer\s+[A-Za-z0-9\-\._~\+\/]+=*`. -/
def bearerPat : List RItem :=
  [.lit ('B' :: 'e' :: 'a' :: 'r' :: 'e' :: 'r' :: []), .cls isSpaceC 1 none,
   .cls bearerTokC 1 none, .cls (fun c => c == '=') 0 none]

/-- Pattern `aws_key`: `AKIA[0-9A-Z]{12,20}` (case-insensitive). -/
def awsPat : List RItem :=
  [.lit ('A' :: 'K' :: 'I' :: 'A' :: []), .cls awsBodyC 12 (some 20)]

/-- Pattern `generic_secret`:
`(api_key|secret|password|token|auth_token)["\']?\s*[:=]\s*["\']?[A-Za-z0-9_\-]{12,}`. -/
def secretPat : List RItem :=
  [.alts ["api_key".data, "secret".data, "password".data, "token".data, "auth_token".data],
   .cls quoteC 0 (some 1), .cls isSpaceC 0 none, .cls colonEqC 1 (some 1),
   .cls isSpaceC 0 none, .cls quoteC 0 (some 1), .cls secretValC 12 none]

/-- The ordered detector list of `SovereignScrubber.PATTERNS` with the
placeholders produced by `f"[REDACTED_{name.upper()}]"`. -/
def DETECTORS : List (List RItem × List Char) :=
  [(emailPat, "[REDACTED_EMAIL]".data),
   (ipPat, "[REDACTED_IP]".data),
   (bearerPat, "[REDACTED_BEARER_TOKEN]".data),
   (awsPat, "[REDACTED_AWS_KEY]".data),
   (secretPat, "[REDACTED_GENERIC_SECRET]".data)]

/-- One loop iteration of `scrub_text`: `findall` (here: existence of a first
match) decides whether `pattern.sub` runs; the audit-log side effect is
swallowed by the source and carries no data dependence. -/
def applyDetector (pat : List RItem) (ph : List Char) (l : List Char) : List Char :=
  if (findMatch pat none l).isSome then subAllF (l.length + 1) pat ph none l else l

/-- `SovereignScrubber.scrub_text` on character lists. -/
def scrubChars (l : List Char) : List Char :=
  if l = [] then [] else DETECTORS.foldl (fun acc d => applyDetector d.1 d.2 acc) l

/-- `SovereignScrubber.scrub_text`. -/
def scrub_text (s : String) : String := ⟨scrubChars s.data⟩

/-- JSON-serializable Python values: the property values the Data Fabric
stores (spec: "string-keyed map of arbitrary JSON-serializable values"). -/
inductive PyVal where
  | str (s : String)
  | int (n : Int)
  | bool (b : Bool)
  | none
  | list (xs : List PyVal)
  | dict (kvs : List (String × PyVal))

mutual

/-- `SovereignScrubber.scrub_object`: recurses through dicts and lists,
applying `scrub_text` to every string leaf; other leaves pass unchanged
(dict keys are not scrubbed, as in the source). -/
def scrub_object : PyVal → PyVal
  | .str s => .str (scrub_text s)
  | .int n => .int n
  | .bool b => .bool b
  | .none => .none
  | .list xs => .list (scrubList xs)
  | .dict kvs => .dict (scrubDict kvs)
termination_by structural v => v

/-- The list comprehension branch of `scrub_object`. -/
def scrubList : List PyVal → List PyVal
  | [] => []
  | x :: xs => scrub_object x :: scrubList xs
termination_by structural l => l

/-- The dict comprehension branch of `scrub_object`. -/
def scrubDict : List (String × PyVal) → List (String × PyVal)
  | [] => []
  | kv :: kvs => (kv.1, scrub_object kv.2) :: scrubDict kvs
termination_by structural l => l

end

/-- `SovereignScrubber.validate_ingestion`: returns the scrubbed properties
(the uid/type arguments only feed a debug log line). -/
def validate_ingestion (_uid _obj_type : String) (properties : List (String × PyVal)) :
    List (String × PyVal) :=
  properties.map (fun kv => (kv.1, scrub_object kv.2))

/-- JSON string escaping as `json.dumps` performs it on the common ASCII
escapes (the control characters beyond these do not occur in the stored data). -/
def escC (c : Char) : List Char :=
  if c = '"' then ['\\', '"']
  else if c = '\\' then ['\\', '\\']
  else if c = '\n' then ['\\', 'n']
  else if c = '\t' then ['\\', 't']
  else if c = '\x0d' then ['\\', 'r']
  else if c = '\x08' then ['\\', 'b']
  else if c = '\x0c' then ['\\', 'f']
  else [c]

/-- Escapes a whole string for JSON output. -/
def escStr (s : List Char) : List Char := s.foldr (fun c acc => escC c ++ acc) []

/-- Joins chunks with `", "`, the default item separator of `json.dumps`. -/
def joinComma : List (List Char) → List Char
  | [] => []
  | [x] => x
  | x :: y :: rest => x ++ [',', ' '] ++ joinComma (y :: rest)

mutual

/-- `json.dumps` with default separators, on `PyVal`. -/
def dumpVal : PyVal → List Char
  | .str s => '"' :: (escStr s.data ++ ['"'])
  | .int n => (toString n).data
  | .bool b => if b then "true".data else "false".data
  | .none => "null".data
  | .list xs => '[' :: (joinComma (dumpList xs) ++ [']'])
  | .dict kvs => '{' :: (joinComma (dumpDict kvs) ++ ['}'])
termination_by structural v => v

/-- Serializes the elements of a JSON array. -/
def dumpList : List PyVal → List (List Char)
  | [] => []
  | x :: xs => dumpVal x :: dumpList xs
termination_by structural l => l

/-- Serializes the members of a JSON object. -/
def dumpDict : List (String × PyVal) → List (List Char)
  | [] => []
  | kv :: kvs =>
      ('"' :: (escStr kv.1.data ++ ['"', ':', ' ']) ++ dumpVal kv.2) :: dumpDict kvs
termination_by structural l => l

end

/-- Serialized property blob, as written into the `data` column
(`json.dumps` on the property map). -/
def dumps (v : PyVal) : String := ⟨dumpVal v⟩

/-- Whitespace skipping for the JSON parser. -/
def skipWs : List Char → List Char
  | c :: l => if c = ' ' || c = '\t' || c = '\n' || c = '\x0d' then skipWs l else c :: l
  | [] => []

/-- Parses a JSON string body after the opening quote, un-escaping as
`json.loads` does; returns the decoded characters and the rest after the
closing quote. -/
def parseStrBody : Nat → List Char → Option (List Char × List Char)
  | 0, _ => none
  | _ + 1, [] => none
  | fuel + 1, c :: l =>
    if c = '"' then some ([], l)
    else if c = '\\' then
      match l with
      | [] => none
      | e :: l2 =>
        let dec : Option Char :=
          if e = '"' then some '"'
          else if e = '\\' then some '\\'
          else if e = '/' then some '/'
          else if e = 'n' then some '\n'
          else if e = 't' then some '\t'
          else if e = 'r' then some '\x0d'
          else if e = 'b' then some '\x08'
          else if e = 'f' then some '\x0c'
          else Option.none
        match dec with
        | some d =>
          match parseStrBody fuel l2 with
          | some (cs, rest) => some (d :: cs, rest)
          | none => none
        | Option.none => none
    else
      match parseStrBody fuel l with
      | some (cs, rest) => some (c :: cs, rest)
      | none => none

/-- Parses a run of decimal digits into a `Nat`; fails on an empty run. -/
def parseDigits (l : List Char) : Option (Nat × List Char) :=
  let run := takeRun isDigitC l
  let rest := dropRun isDigitC l
  if run.length = 0 then none
  else some (run.foldl (fun n c => n * 10 + (c.toNat - '0'.toNat)) 0, rest)

mutual

/-- Recursive-descent JSON value parser (the subset produced by `dumps`:
objects, arrays, strings, integers, booleans, null). A float or malformed
input returns `none`, standing for the `json.JSONDecodeError` that
`json.loads` raises. -/
def parseVal : Nat → List Char → Option (PyVal × List Char)
  | 0, _ => none
  | fuel + 1, l =>
    match skipWs l with
    | [] => none
    | c :: l2 =>
      if c = '"' then
        match parseStrBody (l2.length + 1) l2 with
        | some (cs, rest) => some (.str ⟨cs⟩, rest)
        | none => none
      else if c = '{' then
        match skipWs l2 with
        | '}' :: rest => some (.dict [], rest)
        | l3 => match parseMembers fuel l3 with
          | some (kvs, rest) => some (.dict kvs, rest)
          | none => none
      else if c = '[' then
        match skipWs l2 with
        | ']' :: rest => some (.list [], rest)
        | l3 => match parseItems fuel l3 with
          | some (xs, rest) => some (.list xs, rest)
          | none => none
      else if c = 't' then
        if l2.take 3 = "rue".data then some (.bool true, l2.drop 3) else none
      else if c = 'f' then
        if l2.take 4 = "alse".data then some (.bool false, l2.drop 4) else none
      else if c = 'n' then
        if l2.take 3 = "ull".data then some (.none, l2.drop 3) else none
      else if c = '-' then
        match parseDigits l2 with
        | some (n, rest) =>
          match rest with
          | r :: _ => if r = '.' || r = 'e' || r = 'E' then none else some (.int (-(n : Int)), rest)
          | [] => some (.int (-(n : Int)), rest)
        | none => none
      else if isDigitC c then
        match parseDigits (c :: l2) with
        | some (n, rest) =>
          match rest with
          | r :: _ => if r = '.' || r = 'e' || r = 'E' then none else some (.int (n : Int), rest)
          | [] => some (.int (n : Int), rest)
        | none => none
      else none

/-- Parses the members of a JSON object after `{` (at least one member). -/
def parseMembers : Nat → List Char → Option (List (String × PyVal) × List Char)
  | 0, _ => none
  | fuel + 1, l =>
    match skipWs l with
    | '"' :: l2 =>
      match parseStrBody (l2.length + 1) l2 with
      | some (cs, rest) =>
        match skipWs rest with
        | ':' :: rest2 =>
          match parseVal fuel rest2 with
          | some (v, rest3) =>
            match skipWs rest3 with
            | ',' :: rest4 =>
              match parseMembers fuel rest4 with
              | some (kvs, rest5) => some ((⟨cs⟩, v) :: kvs, rest5)
              | none => none
            | '}' :: rest4 => some ([(⟨cs⟩, v)], rest4)
            | _ => none
          | none => none
        | _ => none
      | none => none
    | _ => none

/-- Parses the items of a JSON array after `[` (at least one item). -/
def parseItems : Nat → List Char → Option (List PyVal × List Char)
  | 0, _ => none
  | fuel + 1, l =>
    match parseVal fuel l with
    | some (v, rest) =>
      match skipWs rest with
      | ',' :: rest2 =>
        match parseItems fuel rest2 with
        | some (xs, rest3) => some (v :: xs, rest3)
        | none => none
      | ']' :: rest2 => some ([v], rest2)
      | _ => none
    | none => none

end

/-- `json.loads`: parses a complete JSON document; trailing garbage or a
syntax error yields `none` (the exception path of `json.loads`). -/
def json_loads (s : String) : Option PyVal :=
  match parseVal (s.length + 1) s.data with
  | some (v, rest) => if skipWs rest = [] then some v else Option.none
  | none => Option.none

/-! ### Python dict / set primitives

A Python `dict` is modelled as an insertion-ordered association list:
`d[k] = v` replaces the value in place when `k` is present (its unique
occurrence, since these lists are built only through `dictSet`) and appends
`(k, v)` otherwise; `dict.update` folds `dictSet` over the new pairs.
A Python `set` of hashable pairs is modelled as a duplicate-free list with
append-if-absent insertion. -/

/-- Python `d[k] = v`. -/
def dictSet {β : Type} : List (String × β) → String → β → List (String × β)
  | [], k, v => [(k, v)]
  | (k2, v2) :: d, k, v =>
    if k2 = k then (k, v) :: d else (k2, v2) :: dictSet d k v

/-- Python `d.get(k)` / `d[k]` lookup. -/
def dictGet? {β : Type} : List (String × β) → String → Option β
  | [], _ => Option.none
  | (k2, v) :: d, k => if k2 = k then some v else dictGet? d k

/-- Python `k in d`. -/
def dictHas {β : Type} (d : List (String × β)) (k : String) : Bool :=
  (dictGet? d k).isSome

/-- Python `d.update(new)`: later keys win, unspecified keys are retained. -/
def dictUpdate {β : Type} (d new : List (String × β)) : List (String × β) :=
  new.foldl (fun acc kv => dictSet acc kv.1 kv.2) d

/-- Python `s.add(x)` on a set: inserting a duplicate is a no-op. -/
def setAdd {α : Type} [DecidableEq α] (s : List α) (x : α) : List α :=
  if x ∈ s then s else s ++ [x]

/-- Python `s.update(t)` on sets: union, keeping `s`'s elements. -/
def setUnion {α : Type} [DecidableEq α] (s t : List α) : List α :=
  t.foldl setAdd s

/-! ### GraphObject and the kernel state -/

/-- `GraphObject`: a typed node with a property bag, a set of
`(neighbor_uid, link_type)` links, and a creation timestamp. -/
structure GraphObject where
  uid : String
  type : String
  properties : List (String × PyVal)
  links : List (String × String)
  created_at : String

/-- `GraphObject.add_link`. -/
def GraphObject.add_link (o : GraphObject) (neighbor_uid link_type : String) : GraphObject :=
  { o with links := setAdd o.links (neighbor_uid, link_type) }

/-- One row of the SQLite `objects` relation `(uid PRIMARY KEY, type, data, created_at)`. -/
structure ObjRow where
  uid : String
  type : String
  data : String
  created_at : String

/-- The state a `GraphKernel` owns: the in-memory index `self.objects` and the
two durable relations of its SQLite store. -/
structure KState where
  objects : List (String × GraphObject)
  dbObjects : List ObjRow
  dbLinks : List (String × String × String)

/-- `INSERT OR REPLACE INTO objects`: `uid` is the primary key, so a
conflicting row is replaced, otherwise the row is appended. -/
def insertOrReplaceRow : List ObjRow → ObjRow → List ObjRow
  | [], r => [r]
  | r2 :: rows, r => if r2.uid = r.uid then r :: rows else r2 :: insertOrReplaceRow rows r

/-- Looks up the `objects` row with the given uid. -/
def rowGet? : List ObjRow → String → Option ObjRow
  | [], _ => Option.none
  | r :: rows, u => if r.uid = u then some r else rowGet? rows u

/-- `INSERT OR IGNORE INTO links`: the full triple is the primary key. -/
def insertOrIgnoreLink (rows : List (String × String × String))
    (e : String × String × String) : List (String × String × String) :=
  if e ∈ rows then rows else rows ++ [e]

/-- `GraphKernel.upsert_object`. `dbFail` says whether the SQLite write
raises an I/O error; the source updates the in-memory index first and only
then opens the durable transaction, whose failure rolls the database (but
not the index) back and propagates. Returns the outcome and the state. -/
def upsert_object (dbFail : Bool) (st : KState) (obj0 : GraphObject) :
    Except Unit Unit × KState :=
  let obj : GraphObject :=
    { obj0 with properties := validate_ingestion obj0.uid obj0.type obj0.properties }
  let objects2 :=
    match dictGet? st.objects obj.uid with
    | some ex =>
        dictSet st.objects obj.uid
          { ex with properties := dictUpdate ex.properties obj.properties,
                    links := setUnion ex.links obj.links }
    | Option.none => dictSet st.objects obj.uid obj
  let st1 : KState := { st with objects := objects2 }
  if dbFail then (Except.error (), st1)
  else
    let rows := insertOrReplaceRow st1.dbObjects
      ⟨obj.uid, obj.type, dumps (PyVal.dict obj.properties), obj.created_at⟩
    let lnks := obj.links.foldl
      (fun acc tl => insertOrIgnoreLink acc (obj.uid, tl.1, tl.2)) st1.dbLinks
    (Except.ok (), { st1 with dbObjects := rows, dbLinks := lnks })

/-- `GraphKernel.link`: a warning-only no-op unless both endpoints exist;
otherwise adds the edge (and its inverse when bidirectional) to the index and
persists the same edge rows. -/
def link (dbFail : Bool) (st : KState) (source_uid target_uid link_type : String)
    (bidirectional : Bool) : Except Unit Unit × KState :=
  if dictHas st.objects source_uid && dictHas st.objects target_uid then
    let objects1 :=
      match dictGet? st.objects source_uid with
      | some so => dictSet st.objects source_uid (so.add_link target_uid link_type)
      | Option.none => st.objects
    let objects2 :=
      if bidirectional then
        match dictGet? objects1 target_uid with
        | some tg =>
            dictSet objects1 target_uid (tg.add_link source_uid ("inverse_" ++ link_type))
        | Option.none => objects1
      else objects1
    let st1 : KState := { st with objects := objects2 }
    if dbFail then (Except.error (), st1)
    else
      let l1 := insertOrIgnoreLink st1.dbLinks (source_uid, target_uid, link_type)
      let l2 :=
        if bidirectional then
          insertOrIgnoreLink l1 (target_uid, source_uid, "inverse_" ++ link_type)
        else l1
      (Except.ok (), { st1 with dbLinks := l2 })
  else (Except.ok (), st)

/-- The BFS loop of `get_neighborhood`: pops the FIFO queue, and for each
popped node below the depth bound folds over its links, adding unseen
existing neighbors to the insertion-ordered cluster and to the queue. The
fuel only bounds the iteration count; callers pass `objects.length + 1`,
which exceeds the number of possible queue pushes. -/
def bfsStep (objects : List (String × GraphObject)) (cd : Nat)
    (acc : List (String × GraphObject) × List (String × Nat)) (nb : String × String) :
    List (String × GraphObject) × List (String × Nat) :=
  if dictHas acc.1 nb.1 then acc
  else
    match dictGet? objects nb.1 with
    | some nbObj => (acc.1 ++ [(nb.1, nbObj)], acc.2 ++ [(nb.1, cd + 1)])
    | Option.none => acc

def bfsLoop (objects : List (String × GraphObject)) (depth : Nat) :
    Nat → List (String × GraphObject) → List (String × Nat) → List (String × GraphObject)
  | 0, cluster, _ => cluster
  | _ + 1, cluster, [] => cluster
  | fuel + 1, cluster, (cu, cd) :: queue =>
    if depth ≤ cd then bfsLoop objects depth fuel cluster queue
    else
      match dictGet? objects cu with
      | Option.none => bfsLoop objects depth fuel cluster queue
      | some o =>
        let step := o.links.foldl (bfsStep objects cd) (cluster, queue)
        bfsLoop objects depth fuel step.1 step.2

/-- `GraphKernel.get_neighborhood`: empty for an unknown uid, else the BFS
cluster in discovery order, seed first. -/
def get_neighborhood (st : KState) (uid : String) (depth : Nat) : List GraphObject :=
  match dictGet? st.objects uid with
  | Option.none => []
  | some o =>
      (bfsLoop st.objects depth (st.objects.length + 1) [(uid, o)] [(uid, 0)]).map (·.2)

/-- `GraphKernel.ingest_symbol`. `nowTs` stands for the wall-clock timestamp
`datetime.now(...)` the source generates for objects created by this call. -/
def ingest_symbol (st : KState) (nowTs : String) (rel_path name symbol_type : String)
    (properties : List (String × PyVal)) : String × KState :=
  let uid := "symbol:" ++ rel_path ++ ":" ++ name
  let obj : GraphObject :=
    { uid := uid, type := "symbol",
      properties := dictUpdate
        [("name", .str name), ("file_path", .str rel_path), ("symbol_type", .str symbol_type)]
        properties,
      links := [], created_at := nowTs }
  let st1 := (upsert_object false st obj).2
  let module_uid := "module:" ++ rel_path
  let st2 :=
    if dictHas st1.objects module_uid then st1
    else
      (upsert_object false st1
        { uid := module_uid, type := "module",
          properties := [("name", .str rel_path)], links := [],
          created_at := nowTs }).2
  let st3 := (link false st2 module_uid uid "defines" true).2
  (uid, st3)

/-- `GraphKernel.ingest_intent`. -/
def ingest_intent (st : KState) (nowTs : String) (intent_id content : String)
    (properties : List (String × PyVal)) : String × KState :=
  let uid := "intent:" ++ intent_id
  let obj : GraphObject :=
    { uid := uid, type := "intent",
      properties := dictUpdate [("content", .str content)] properties,
      links := [], created_at := nowTs }
  let st1 := (upsert_object false st obj).2
  let st2 :=
    match dictGet? properties "focus_symbol" with
    | some (.str symbol_uid) =>
        if dictHas st1.objects symbol_uid then (link false st1 uid symbol_uid "clarifies" true).2
        else st1
    | some _ => st1
    | Option.none => st1
  let st3 :=
    match dictGet? properties "file_path" with
    | some (.str fp) =>
        let module_uid := "module:" ++ fp
        let st2b :=
          if dictHas st2.objects module_uid then st2
          else
            (upsert_object false st2
              { uid := module_uid, type := "module",
                properties := [("name", .str fp)], links := [],
                created_at := nowTs }).2
        (link false st2b uid module_uid "described_in" true).2
    | some _ => st2
    | Option.none => st2
  (uid, st3)

/-- `GraphKernel.ingest_finding`. The uid embeds the wall-clock timestamp
`tsComponent` (`datetime.now().timestamp()` in the source). -/
def ingest_finding (st : KState) (nowTs tsComponent : String)
    (rel_path finding_type severity message : String)
    (properties : List (String × PyVal)) : String × KState :=
  let uid := "finding:" ++ rel_path ++ ":" ++ finding_type ++ ":" ++ tsComponent
  let obj : GraphObject :=
    { uid := uid, type := "finding",
      properties := dictUpdate
        [("finding_type", .str finding_type), ("severity", .str severity),
         ("message", .str message), ("file_path", .str rel_path)] properties,
      links := [], created_at := nowTs }
  let st1 := (upsert_object false st obj).2
  let module_uid := "module:" ++ rel_path
  let st2 :=
    if dictHas st1.objects module_uid then st1
    else
      (upsert_object false st1
        { uid := module_uid, type := "module",
          properties := [("name", .str rel_path)], links := [],
          created_at := nowTs }).2
  let st3 := (link false st2 uid module_uid "violates" true).2
  let st4 :=
    match dictGet? properties "focus_symbol" with
    | some (.str fs) =>
        let symbol_uid := "symbol:" ++ rel_path ++ ":" ++ fs
        if dictHas st3.objects symbol_uid then (link false st3 uid symbol_uid "targets" true).2
        else st3
    | some _ => st3
    | Option.none => st3
  (uid, st4)

/-! ### Load -/

/-- The objects half of `GraphKernel._load`: each row's `data` blob is parsed
with `json.loads` and a fresh `GraphObject` (with an empty link set) replaces
any index entry for that uid. A blob that does not parse as a JSON object
makes the whole load raise (`.error`), since the source wraps the parse in no
try/except. -/
def loadObjects : List (String × GraphObject) → List ObjRow →
    Except Unit (List (String × GraphObject))
  | idx, [] => Except.ok idx
  | idx, r :: rows =>
    match json_loads r.data with
    | some (.dict kvs) =>
        loadObjects
          (dictSet idx r.uid
            { uid := r.uid, type := r.type, properties := kvs, links := [],
              created_at := r.created_at })
          rows
    | _ => Except.error ()

/-- The links half of `GraphKernel._load`: merge each stored edge into its
source object's link set, skipping edges whose source is not in the index. -/
def loadLinks (idx : List (String × GraphObject))
    (lrows : List (String × String × String)) : List (String × GraphObject) :=
  lrows.foldl
    (fun acc e =>
      match dictGet? acc e.1 with
      | some o => dictSet acc e.1 (o.add_link e.2.1 e.2.2)
      | Option.none => acc)
    idx

/-- `GraphKernel._load` over an existing index. -/
def graph_load (idx : List (String × GraphObject)) (rows : List ObjRow)
    (lrows : List (String × String × String)) :
    Except Unit (List (String × GraphObject)) :=
  match loadObjects idx rows with
  | Except.ok idx2 => Except.ok (loadLinks idx2 lrows)
  | Except.error e => Except.error e

/-- Reachability in the index's link graph: `ReachN objects seed d u` says a
directed path of `d` link hops leads from `seed` to `u`, every traversed
target existing in the index. -/
inductive ReachN (objects : List (String × GraphObject)) (seed : String) :
    Nat → String → Prop where
  | refl : ReachN objects seed 0 seed
  | step {d : Nat} {u v t : String} {o : GraphObject} :
      ReachN objects seed d u → dictGet? objects u = some o →
      (v, t) ∈ o.links → dictHas objects v = true → ReachN objects seed (d + 1) v

/-- Invariant of a BFS cluster entry: it stores the indexed object of its
uid, and that uid is within `k` hops of the seed. -/
def EntryOK (objects : List (String × GraphObject)) (seed : String) (k : Nat)
    (e : String × GraphObject) : Prop :=
  dictGet? objects e.1 = some e.2 ∧ ∃ d, d ≤ k ∧ ReachN objects seed d e.1

/-- Invariant of a BFS queue entry: its recorded depth is within bounds and
witnesses reachability. -/
def QOK (objects : List (String × GraphObject)) (seed : String) (k : Nat)
    (qd : String × Nat) : Prop :=
  qd.2 ≤ k ∧ ReachN objects seed qd.2 qd.1

/-- First write of the two-upsert scenario shared by C3 and C7. -/
def exObj1 : GraphObject := ⟨"u", "t", [("a", .int 1)], [], "t0"⟩

/-- Second write (same uid, fresh timestamp) of the scenario shared by C3 and C7. -/
def exObj2 : GraphObject := ⟨"u", "t", [("b", .int 2)], [], "t5"⟩

/-- Kernel state after upserting `exObj1` into an empty kernel. -/
def exSt1 : KState := (upsert_object false ⟨[], [], []⟩ exObj1).2

/-- Kernel state after then upserting `exObj2`. -/
def exSt2 : KState := (upsert_object false exSt1 exObj2).2

/-- A two-object kernel state used to exercise the successful `link` path. -/
def c10St : KState :=
  ⟨[("a", ⟨"a", "t", [], [], "c"⟩), ("b", ⟨"b", "t", [], [], "c"⟩)], [], []⟩

/-- Well-formedness of a kernel state: the index and the durable `objects`
relation are keyed (no duplicate uids), as a Python dict and a `PRIMARY KEY`
column guarantee. -/
def KWF (st : KState) : Prop :=
  (st.objects.map Prod.fst).Nodup ∧ (st.dbObjects.map ObjRow.uid).Nodup

/-- `w` occurs as a contiguous substring of `l`. -/
def Occurs (w l : List Char) : Prop := ∃ u v, l = u ++ w ++ v

/-- Characters an item can possibly consume. -/
def possItem : RItem → Char → Bool
  | .lit w, c => w.any (fun wc => ciEq wc c)
  | .alts ws, c => ws.any (fun w => w.any (fun wc => ciEq wc c))
  | .cls p _ _, c => p c
  | .wb, _ => false

/-- Characters a pattern can possibly consume. -/
def possChars (pat : List RItem) (c : Char) : Bool := pat.any (fun it => possItem it c)

/-- Pointwise case-insensitive equality of words. -/
def CiW (w w2 : List Char) : Prop := List.Forall₂ (fun a b => ciEq a b = true) w w2

/-- Case-insensitive prefix test. -/
def ciPrefB : List Char → List Char → Bool
  | [], _ => true
  | _ :: _, [] => false
  | c :: w, x :: l => ciEq c x && ciPrefB w l

/-- Case-insensitive substring scan. -/
def ciSegB (w : List Char) : List Char → Bool
  | [] => w.isEmpty
  | x :: l => ciPrefB w (x :: l) || ciSegB w l

/-- Stage 1 of `scrub_text`: the email detector. -/
def stage1 (l : List Char) : List Char := applyDetector emailPat "[REDACTED_EMAIL]".data l

/-- Stage 2: the IPv4 detector over the email-scrubbed text. -/
def stage2 (l : List Char) : List Char := applyDetector ipPat "[REDACTED_IP]".data (stage1 l)

/-- Stage 3: the bearer-token detector. -/
def stage3 (l : List Char) : List Char :=
  applyDetector bearerPat "[REDACTED_BEARER_TOKEN]".data (stage2 l)

/-- Stage 4: the AWS-key detector. -/
def stage4 (l : List Char) : List Char :=
  applyDetector awsPat "[REDACTED_AWS_KEY]".data (stage3 l)

/-- Stage 5: the generic-secret detector; for nonempty input this is the
whole of `scrub_text`. -/
def stage5 (l : List Char) : List Char :=
  applyDetector secretPat "[REDACTED_GENERIC_SECRET]".data (stage4 l)

/-- What a single item can have consumed. -/
def itemConsumed : RItem → List Char → Prop
  | .lit w, c1 => CiW w c1
  | .alts ws, c1 => ∃ w ∈ ws, CiW w c1
  | .cls p lo hi, c1 =>
      (∀ ch ∈ c1, p ch = true) ∧ min lo (hi.getD lo) ≤ c1.length
  | .wb, c1 => c1 = []

/-! ### Association-list lemmas -/

theorem dictGet?_dictSet_self {β : Type} (d : List (String × β)) (k : String) (v : β) :
    dictGet? (dictSet d k v) k = some v := by
  induction d with
  | nil => simp [dictSet, dictGet?]
  | cons kv d ih =>
    obtain ⟨k2, v2⟩ := kv
    by_cases h : k2 = k <;> simp [dictSet, dictGet?, h, ih]

theorem dictGet?_dictSet_ne {β : Type} (d : List (String × β)) (k k2 : String) (v : β)
    (h : k2 ≠ k) : dictGet? (dictSet d k v) k2 = dictGet? d k2 := by
  induction d with
  | nil => simp [dictSet, dictGet?, Ne.symm h]
  | cons kv d ih =>
    obtain ⟨k3, v3⟩ := kv
    by_cases h3 : k3 = k
    · subst h3
      simp [dictSet, dictGet?, Ne.symm h]
    · by_cases h4 : k3 = k2 <;> simp [dictSet, dictGet?, h3, h4, h, ih]

theorem rowGet?_insertOrReplaceRow_self (rows : List ObjRow) (r : ObjRow) :
    rowGet? (insertOrReplaceRow rows r) r.uid = some r := by
  induction rows with
  | nil => simp [insertOrReplaceRow, rowGet?]
  | cons r2 rows ih =>
    by_cases h : r2.uid = r.uid <;> simp [insertOrReplaceRow, rowGet?, h, ih]

theorem rowGet?_insertOrReplaceRow_self2 (rows : List ObjRow) (u ty da ca : String) :
    rowGet? (insertOrReplaceRow rows ⟨u, ty, da, ca⟩) u = some ⟨u, ty, da, ca⟩ :=
  rowGet?_insertOrReplaceRow_self rows ⟨u, ty, da, ca⟩

theorem rowGet?_insertOrReplaceRow_ne (rows : List ObjRow) (r : ObjRow) (u : String)
    (h : u ≠ r.uid) : rowGet? (insertOrReplaceRow rows r) u = rowGet? rows u := by
  induction rows with
  | nil => simp [insertOrReplaceRow, rowGet?, Ne.symm h]
  | cons r2 rows ih =>
    by_cases h3 : r2.uid = r.uid
    · rw [insertOrReplaceRow, if_pos h3, rowGet?, rowGet?, h3]
      simp [Ne.symm h]
    · by_cases h4 : r2.uid = u <;>
        simp [insertOrReplaceRow, rowGet?, h3, h4, h, Ne.symm h, ih]

theorem dictHas_dictSet {β : Type} (d : List (String × β)) (k u : String) (v : β) :
    dictHas (dictSet d k v) u = (dictHas d u || u == k) := by
  by_cases h : u = k
  · subst h
    simp [dictHas, dictGet?_dictSet_self]
  · simp [dictHas, dictGet?_dictSet_ne d k u v h, h]

theorem mem_setAdd {α : Type} [DecidableEq α] (s : List α) (x y : α) :
    y ∈ setAdd s x ↔ (y ∈ s ∨ y = x) := by
  unfold setAdd
  by_cases h : x ∈ s
  · simp only [if_pos h]
    constructor
    · exact fun h2 => Or.inl h2
    · rintro (h2 | rfl) <;> assumption
  · simp [if_neg h]

theorem mem_insertOrIgnoreLink (rows : List (String × String × String))
    (e x : String × String × String) :
    x ∈ insertOrIgnoreLink rows e ↔ (x ∈ rows ∨ x = e) := by
  unfold insertOrIgnoreLink
  by_cases h : e ∈ rows
  · simp only [if_pos h]
    constructor
    · exact fun h2 => Or.inl h2
    · rintro (h2 | rfl) <;> assumption
  · simp [if_neg h]

/-! ### Claims C1, C2, C3, C7: the upsert/link write paths -/

/-- C1 (counterexample). Claim: a failed durable write propagates the
exception and leaves the in-memory index exactly as it was before the call.
At the concrete call `upsert_object` on an empty kernel whose durable write
fails, the exception does propagate, but the index has gained the object:
the failed write is reflected in the index. -/
theorem c1_counterexample :
    (upsert_object true ⟨[], [], []⟩ ⟨"a", "t", [], [], "c0"⟩).1 = Except.error () ∧
    (⟨[], [], []⟩ : KState).objects.length = 0 ∧
    (upsert_object true ⟨[], [], []⟩ ⟨"a", "t", [], [], "c0"⟩).2.objects.length = 1 := by
  exact ⟨rfl, rfl, rfl⟩

/-- C1 (amended). When the durable write of `upsert_object` or `link` fails,
the exception is propagated to the caller and the durable store is unchanged
(the SQLite transaction rolls back), but the in-memory index has already been
updated exactly as in the successful case, so the index and the durable store
diverge until the kernel is reloaded. A `link` call with a missing endpoint
never reaches the durable write and returns normally. -/
theorem c1_amended (st : KState) (obj : GraphObject)
    (s t ty : String) (b : Bool) :
    (upsert_object true st obj).1 = Except.error () ∧
    (upsert_object true st obj).2.dbObjects = st.dbObjects ∧
    (upsert_object true st obj).2.dbLinks = st.dbLinks ∧
    (upsert_object true st obj).2.objects = (upsert_object false st obj).2.objects ∧
    (link true st s t ty b).2.dbObjects = st.dbObjects ∧
    (link true st s t ty b).2.dbLinks = st.dbLinks ∧
    (link true st s t ty b).2.objects = (link false st s t ty b).2.objects ∧
    ((link true st s t ty b).1 = Except.error () ↔
      (dictHas st.objects s && dictHas st.objects t) = true) := by
  refine ⟨?_, ?_, ?_, ?_, ?_, ?_, ?_, ?_⟩
  · unfold upsert_object
    cases h : dictGet? st.objects obj.uid <;> simp [h]
  · unfold upsert_object
    cases h : dictGet? st.objects obj.uid <;> simp [h]
  · unfold upsert_object
    cases h : dictGet? st.objects obj.uid <;> simp [h]
  · unfold upsert_object
    cases h : dictGet? st.objects obj.uid <;> simp [h]
  · unfold link
    cases h2 : (dictHas st.objects s && dictHas st.objects t) <;> simp [h2]
  · unfold link
    cases h2 : (dictHas st.objects s && dictHas st.objects t) <;> simp [h2]
  · unfold link
    cases h2 : (dictHas st.objects s && dictHas st.objects t) <;> simp [h2]
  · unfold link
    cases h2 : (dictHas st.objects s && dictHas st.objects t) <;> simp [h2]

/-- C2. On every write path, the property blob handed to the durable
`objects` relation is exactly the serialized output of the Scrubbing Gate's
`validate_ingestion` on the incoming properties: after any `upsert_object`
(hence after the upserts of `ingest_symbol` / `ingest_intent` /
`ingest_finding`, which all route through it), the durable row for the
written uid carries `dumps (validate_ingestion uid type properties)`. -/
theorem c2_scrubbed_reaches_db (st : KState) (obj : GraphObject) :
    rowGet? ((upsert_object false st obj).2.dbObjects) obj.uid =
      some ⟨obj.uid, obj.type,
        dumps (PyVal.dict (validate_ingestion obj.uid obj.type obj.properties)),
        obj.created_at⟩ := by
  unfold upsert_object
  cases h : dictGet? st.objects obj.uid <;>
    simp [h, rowGet?_insertOrReplaceRow_self2]

/-- C3 (counterexample). Claim: for an upsert on an existing uid, the durable
row contains the full merged property map, equal to the in-memory properties
after the operation. Concretely upserting `{"b": 2}` over an existing
`{"a": 1}` leaves the in-memory object with the merged `{"a": 1, "b": 2}`
but writes only `{"b": 2}` durably — the blobs differ. -/
theorem c3_counterexample :
    ((rowGet? exSt2.dbObjects "u").map ObjRow.data) =
      some (dumps (.dict [("b", .int 2)])) ∧
    ((dictGet? exSt2.objects "u").map (fun o => dumps (.dict o.properties))) =
      some (dumps (.dict [("a", .int 1), ("b", .int 2)])) ∧
    dumps (.dict [("b", .int 2)]) ≠ dumps (.dict [("a", .int 1), ("b", .int 2)]) := by
  refine ⟨rfl, rfl, by decide⟩

/-- C3 (amended). For an upsert on an existing uid, the in-memory object
holds the merge of the existing properties with the sanitized incoming ones,
but the durable row is rewritten with only the sanitized incoming property
map, so the durable blob differs from the in-memory state whenever the
existing object had keys absent from the incoming map. -/
theorem c3_amended (st : KState) (obj : GraphObject) (ex : GraphObject)
    (h : dictGet? st.objects obj.uid = some ex) :
    dictGet? ((upsert_object false st obj).2.objects) obj.uid =
      some { ex with
        properties := dictUpdate ex.properties
          (validate_ingestion obj.uid obj.type obj.properties),
        links := setUnion ex.links obj.links } ∧
    rowGet? ((upsert_object false st obj).2.dbObjects) obj.uid =
      some ⟨obj.uid, obj.type,
        dumps (PyVal.dict (validate_ingestion obj.uid obj.type obj.properties)),
        obj.created_at⟩ := by
  unfold upsert_object
  simp [h, dictGet?_dictSet_self, rowGet?_insertOrReplaceRow_self2]

/-- C3 (witness). -/
theorem c3_amended_witness :
    dictGet? ((upsert_object false exSt1 exObj2).2.objects) "u" =
      some { uid := "u", type := "t",
             properties := dictUpdate [("a", .int 1)]
               (validate_ingestion "u" "t" [("b", .int 2)]),
             links := setUnion [] [], created_at := "t0" } := by
  have h : dictGet? exSt1.objects exObj2.uid = some exObj1 := by
    rw [show exObj2.uid = "u" from rfl]
    rfl
  exact (c3_amended exSt1 exObj2 exObj1 h).1

/-- C7 (counterexample). Claim: `created_at` set at first creation is
immutable in the index and in the durable row. Upserting the same uid again
with a fresh object timestamp keeps the in-memory `created_at` but rewrites
the durable row's `created_at` with the new value, so the durable value no
longer equals the value at first creation. -/
theorem c7_counterexample :
    ((dictGet? exSt2.objects "u").map GraphObject.created_at) = some "t0" ∧
    ((rowGet? exSt2.dbObjects "u").map ObjRow.created_at) = some "t5" ∧
    ("t5" : String) ≠ "t0" := by
  refine ⟨rfl, rfl, by decide⟩

/-- C7 (amended). A later `upsert_object` on an existing uid never changes
the in-memory `created_at`, but it rewrites the durable row with the
upserting object's own `created_at`, so the durable value (and hence the
value observed after a reload) reflects the most recent upsert rather than
the first creation. -/
theorem c7_amended (st : KState) (obj : GraphObject) (ex : GraphObject)
    (h : dictGet? st.objects obj.uid = some ex) :
    (dictGet? ((upsert_object false st obj).2.objects) obj.uid).map
      GraphObject.created_at = some ex.created_at ∧
    (rowGet? ((upsert_object false st obj).2.dbObjects) obj.uid).map
      ObjRow.created_at = some obj.created_at := by
  unfold upsert_object
  simp [h, dictGet?_dictSet_self, rowGet?_insertOrReplaceRow_self2]

/-- A conditional between two present options is present. -/
theorem isSome_ite_some {α : Type} (c : Prop) [Decidable c] (a b : α) :
    (if c then some a else some b).isSome = true := by
  split <;> rfl

/-- Lookup after `dictSet`, as a single conditional equation. -/
theorem dictGet?_dictSet_cases {β : Type} (d : List (String × β)) (k u : String) (v : β) :
    dictGet? (dictSet d k v) u = if u = k then some v else dictGet? d u := by
  by_cases h : u = k
  · subst h
    simp [dictGet?_dictSet_self]
  · simp [h, dictGet?_dictSet_ne d k u v h]

/-- Link-set membership after `add_link`. -/
theorem mem_add_link (o : GraphObject) (n k : String) (e : String × String) :
    e ∈ (o.add_link n k).links ↔ (e ∈ o.links ∨ e = (n, k)) := by
  simp [GraphObject.add_link, mem_setAdd]

/-- C10. `link(a, b, t, bidirectional)`: when either endpoint is missing
from the index the call is a pure no-op — it returns normally (only a
warning is logged), regardless of whether the (never-reached) durable write
would fail, and neither the index nor the store changes. When both endpoints
exist, `(b, t)` is added to `a`'s link set, `(a, "inverse_"+t)` is added to
`b`'s link set when bidirectional, all object fields and all other objects
are untouched, and the durable edge relation gains exactly those edges. -/
theorem c10_link_spec (st : KState) (s t ty : String) (b : Bool) :
    ((dictHas st.objects s && dictHas st.objects t) = false →
      ∀ dbF, link dbF st s t ty b = (Except.ok (), st)) ∧
    ((dictHas st.objects s && dictHas st.objects t) = true →
      (link false st s t ty b).1 = Except.ok () ∧
      (∀ u, dictHas (link false st s t ty b).2.objects u = dictHas st.objects u) ∧
      (∀ u o o2, dictGet? st.objects u = some o →
        dictGet? (link false st s t ty b).2.objects u = some o2 →
        (o2.uid = o.uid ∧ o2.type = o.type ∧ o2.properties = o.properties ∧
         o2.created_at = o.created_at ∧
         ∀ e, e ∈ o2.links ↔ (e ∈ o.links ∨ (u = s ∧ e = (t, ty)) ∨
            (b = true ∧ u = t ∧ e = (s, "inverse_" ++ ty))))) ∧
      (link false st s t ty b).2.dbObjects = st.dbObjects ∧
      (∀ e, e ∈ (link false st s t ty b).2.dbLinks ↔
        (e ∈ st.dbLinks ∨ e = (s, t, ty) ∨
          (b = true ∧ e = (t, s, "inverse_" ++ ty))))) := by
  constructor
  · intro hmiss dbF
    unfold link
    simp [hmiss]
  · intro hboth
    obtain ⟨so, hso⟩ : ∃ so, dictGet? st.objects s = some so := by
      have hs : dictHas st.objects s = true := by
        cases hh : dictHas st.objects s <;> simp [hh] at hboth ⊢
      unfold dictHas at hs
      cases hh : dictGet? st.objects s
      · rw [hh] at hs
        simp at hs
      · exact ⟨_, rfl⟩
    obtain ⟨tg, htg⟩ : ∃ tg, dictGet? st.objects t = some tg := by
      have ht : dictHas st.objects t = true := by
        cases hh : dictHas st.objects t <;> simp [hh] at hboth ⊢
      unfold dictHas at ht
      cases hh : dictGet? st.objects t
      · rw [hh] at ht
        simp at ht
      · exact ⟨_, rfl⟩
    have hlink : link false st s t ty b =
        (Except.ok (),
          ⟨(if b then
              dictSet (dictSet st.objects s (so.add_link t ty)) t
                ((if t = s then so.add_link t ty else tg).add_link s ("inverse_" ++ ty))
            else dictSet st.objects s (so.add_link t ty)),
           st.dbObjects,
           (if b then
              insertOrIgnoreLink (insertOrIgnoreLink st.dbLinks (s, t, ty))
                (t, s, "inverse_" ++ ty)
            else insertOrIgnoreLink st.dbLinks (s, t, ty))⟩) := by
      unfold link
      rw [hboth, if_pos rfl, hso]
      cases b
      · simp
      · simp only [if_pos rfl, dictGet?_dictSet_cases]
        by_cases hts : t = s <;> simp [hts, htg]
    refine ⟨by rw [hlink], ?_, ?_, by rw [hlink], ?_⟩
    · intro u
      rw [hlink]
      unfold dictHas
      cases b <;>
        simp only [Bool.false_eq_true, if_false, if_true, dictGet?_dictSet_cases] <;>
        by_cases hu2 : u = t <;> by_cases hu1 : u = s <;>
          simp [hu1, hu2, hso, htg, isSome_ite_some]
    · intro u o o2 ho ho2
      rw [hlink] at ho2
      cases b <;>
        simp only [Bool.false_eq_true, if_false, if_true, dictGet?_dictSet_cases] at ho2
      · by_cases hu1 : u = s
        · subst hu1
          rw [if_pos rfl] at ho2
          rw [hso] at ho
          have h1 : so = o := Option.some_inj.mp ho
          subst h1
          have h2 : so.add_link t ty = o2 := Option.some_inj.mp ho2
          subst h2
          refine ⟨rfl, rfl, rfl, rfl, ?_⟩
          intro e
          simp [mem_add_link]
        · rw [if_neg hu1, ho] at ho2
          have h2 : o = o2 := Option.some_inj.mp ho2
          subst h2
          refine ⟨rfl, rfl, rfl, rfl, ?_⟩
          intro e
          simp [hu1]
      · by_cases hu2 : u = t
        · subst hu2
          rw [if_pos rfl] at ho2
          by_cases hts : u = s
          · subst hts
            rw [if_pos rfl] at ho2
            rw [hso] at ho
            have h1 : so = o := Option.some_inj.mp ho
            subst h1
            have h2 : (so.add_link u ty).add_link u ("inverse_" ++ ty) = o2 :=
              Option.some_inj.mp ho2
            subst h2
            refine ⟨rfl, rfl, rfl, rfl, ?_⟩
            intro e
            simp [mem_add_link, or_assoc]
          · rw [if_neg hts] at ho2
            rw [htg] at ho
            have h1 : tg = o := Option.some_inj.mp ho
            subst h1
            have h2 : tg.add_link s ("inverse_" ++ ty) = o2 := Option.some_inj.mp ho2
            subst h2
            refine ⟨rfl, rfl, rfl, rfl, ?_⟩
            intro e
            simp [mem_add_link, hts]
        · rw [if_neg hu2] at ho2
          by_cases hu1 : u = s
          · subst hu1
            rw [if_pos rfl] at ho2
            rw [hso] at ho
            have h1 : so = o := Option.some_inj.mp ho
            subst h1
            have h2 : so.add_link t ty = o2 := Option.some_inj.mp ho2
            subst h2
            refine ⟨rfl, rfl, rfl, rfl, ?_⟩
            intro e
            simp [mem_add_link, hu2]
          · rw [if_neg hu1, ho] at ho2
            have h2 : o = o2 := Option.some_inj.mp ho2
            subst h2
            refine ⟨rfl, rfl, rfl, rfl, ?_⟩
            intro e
            simp [hu1, hu2]
    · intro e
      rw [hlink]
      cases b <;>
        simp [Bool.false_eq_true, mem_insertOrIgnoreLink, or_assoc]

/-- C10 (witness). -/
theorem c10_link_spec_witness :
    link true ⟨[], [], []⟩ "a" "b" "ty" true = (Except.ok (), ⟨[], [], []⟩) ∧
    (link false c10St "a" "b" "ty" true).1 = Except.ok () ∧
    (("a", "b", "ty") ∈ (link false c10St "a" "b" "ty" true).2.dbLinks) := by
  refine ⟨?_, ?_, ?_⟩
  · exact (c10_link_spec ⟨[], [], []⟩ "a" "b" "ty" true).1 (by decide) true
  · exact ((c10_link_spec c10St "a" "b" "ty" true).2 (by decide)).1
  · exact ((((c10_link_spec c10St "a" "b" "ty" true).2 (by decide)).2.2.2.2)
      ("a", "b", "ty")).mpr (Or.inr (Or.inl rfl))

/-! ### Claim C9: idempotent symbol ingestion -/

theorem mem_keys_dictSet {β : Type} (d : List (String × β)) (k x : String) (v : β) :
    x ∈ (dictSet d k v).map Prod.fst ↔ (x ∈ d.map Prod.fst ∨ x = k) := by
  induction d with
  | nil => simp [dictSet]
  | cons kv d ih =>
    obtain ⟨k2, v2⟩ := kv
    by_cases h : k2 = k
    · subst h
      rw [dictSet, if_pos rfl]
      simp only [List.map_cons, List.mem_cons]
      tauto
    · rw [dictSet, if_neg h]
      simp only [List.map_cons, List.mem_cons, ih]
      tauto

theorem nodup_keys_dictSet {β : Type} (d : List (String × β)) (k : String) (v : β)
    (h : (d.map Prod.fst).Nodup) : ((dictSet d k v).map Prod.fst).Nodup := by
  induction d with
  | nil => simp [dictSet]
  | cons kv d ih =>
    obtain ⟨k2, v2⟩ := kv
    rw [List.map_cons, List.nodup_cons] at h
    by_cases h2 : k2 = k
    · subst h2
      rw [dictSet, if_pos rfl, List.map_cons, List.nodup_cons]
      exact ⟨h.1, h.2⟩
    · rw [dictSet, if_neg h2, List.map_cons, List.nodup_cons]
      refine ⟨?_, ih h.2⟩
      rw [mem_keys_dictSet]
      rintro (hm | hm)
      · exact h.1 hm
      · exact h2 hm

theorem mem_uids_insertOrReplaceRow (rows : List ObjRow) (r : ObjRow) (x : String) :
    x ∈ (insertOrReplaceRow rows r).map ObjRow.uid ↔
      (x ∈ rows.map ObjRow.uid ∨ x = r.uid) := by
  induction rows with
  | nil => simp [insertOrReplaceRow]
  | cons r2 rows ih =>
    by_cases h : r2.uid = r.uid
    · rw [insertOrReplaceRow, if_pos h]
      simp only [List.map_cons, List.mem_cons, h]
      tauto
    · rw [insertOrReplaceRow, if_neg h]
      simp only [List.map_cons, List.mem_cons, ih]
      tauto

theorem nodup_uids_insertOrReplaceRow (rows : List ObjRow) (r : ObjRow)
    (h : (rows.map ObjRow.uid).Nodup) :
    ((insertOrReplaceRow rows r).map ObjRow.uid).Nodup := by
  induction rows with
  | nil => simp [insertOrReplaceRow]
  | cons r2 rows ih =>
    rw [List.map_cons, List.nodup_cons] at h
    by_cases h2 : r2.uid = r.uid
    · rw [insertOrReplaceRow, if_pos h2, List.map_cons, List.nodup_cons]
      refine ⟨?_, h.2⟩
      rw [← h2]
      exact h.1
    · rw [insertOrReplaceRow, if_neg h2, List.map_cons, List.nodup_cons]
      refine ⟨?_, ih h.2⟩
      rw [mem_uids_insertOrReplaceRow]
      rintro (hm | hm)
      · exact h.1 hm
      · exact h2 hm

/-- Setting a key that is already present does not change which keys are present. -/
theorem dictHas_dictSet_present {β : Type} (d : List (String × β)) (k u : String) (v : β)
    (hk : dictHas d k = true) : dictHas (dictSet d k v) u = dictHas d u := by
  rw [dictHas_dictSet]
  by_cases hu : u = k
  · subst hu
    simp [hk]
  · simp [hu]

/-- `upsert_object` preserves well-formedness, and afterwards the written uid
is present in the index and in the durable `objects` relation; previously
present uids remain present. -/
theorem upsert_wf_has (st : KState) (obj : GraphObject) (h : KWF st) :
    KWF (upsert_object false st obj).2 ∧
    dictHas (upsert_object false st obj).2.objects obj.uid = true ∧
    obj.uid ∈ (upsert_object false st obj).2.dbObjects.map ObjRow.uid ∧
    (∀ u, dictHas st.objects u = true →
      dictHas (upsert_object false st obj).2.objects u = true) ∧
    (∀ u, u ∈ st.dbObjects.map ObjRow.uid →
      u ∈ (upsert_object false st obj).2.dbObjects.map ObjRow.uid) := by
  obtain ⟨h1, h2⟩ := h
  cases hget : dictGet? st.objects obj.uid <;>
    simp only [upsert_object, hget, Bool.false_eq_true, if_false] <;>
    refine ⟨⟨nodup_keys_dictSet _ _ _ h1, nodup_uids_insertOrReplaceRow _ _ h2⟩,
      ?_, ?_, ?_, ?_⟩
  · simp [dictHas_dictSet]
  · rw [mem_uids_insertOrReplaceRow]
    simp
  · intro u hu
    simp [dictHas_dictSet, hu]
  · intro u hu
    rw [mem_uids_insertOrReplaceRow]
    exact Or.inl hu
  · simp [dictHas_dictSet]
  · rw [mem_uids_insertOrReplaceRow]
    simp
  · intro u hu
    simp [dictHas_dictSet, hu]
  · intro u hu
    rw [mem_uids_insertOrReplaceRow]
    exact Or.inl hu

/-- `link` never changes the durable `objects` relation and never changes
which uids the index contains; it also preserves well-formedness. -/
theorem link_wf_has (st : KState) (s t ty : String) (b : Bool) (h : KWF st) :
    KWF (link false st s t ty b).2 ∧
    (link false st s t ty b).2.dbObjects = st.dbObjects ∧
    (∀ u, dictHas (link false st s t ty b).2.objects u = dictHas st.objects u) := by
  obtain ⟨h1, h2⟩ := h
  cases hb : (dictHas st.objects s && dictHas st.objects t)
  · unfold link
    rw [hb]
    refine ⟨⟨h1, h2⟩, ?_, fun u => ?_⟩ <;> simp
  · have hs : dictHas st.objects s = true := by
      cases hh : dictHas st.objects s
      · rw [hh] at hb
        simp at hb
      · rfl
    have ht : dictHas st.objects t = true := by
      cases hh : dictHas st.objects t
      · rw [hh] at hb
        simp [hh] at hb
      · rfl
    cases hget : dictGet? st.objects s
    case none =>
      rw [dictHas, hget] at hs
      simp at hs
    case some so =>
      have e1 : ∀ u, dictHas (dictSet st.objects s (so.add_link t ty)) u
          = dictHas st.objects u :=
        fun u => dictHas_dictSet_present _ _ _ _ hs
      cases b
      case false =>
        unfold link
        rw [hb, hget]
        simp only [Bool.false_eq_true, if_false, if_true]
        refine ⟨⟨nodup_keys_dictSet _ _ _ h1, h2⟩, by simp, fun u => by simp [e1]⟩
      case true =>
        cases hget2 : dictGet? (dictSet st.objects s (so.add_link t ty)) t
        case none =>
          have : dictHas (dictSet st.objects s (so.add_link t ty)) t = true := by
            rw [e1 t]
            exact ht
          rw [dictHas, hget2] at this
          simp at this
        case some tg =>
          unfold link
          rw [hb, hget]
          simp only [if_true, if_pos rfl]
          rw [hget2]
          have e2 : ∀ u, dictHas (dictSet (dictSet st.objects s (so.add_link t ty)) t
              (tg.add_link s ("inverse_" ++ ty))) u = dictHas st.objects u := by
            intro u
            rw [dictHas_dictSet_present _ _ _ _ (by rw [e1 t]; exact ht)]
            exact e1 u
          refine ⟨⟨nodup_keys_dictSet _ _ _ (nodup_keys_dictSet _ _ _ h1), h2⟩,
            by simp, fun u => by simp [e2]⟩

/-- A present key occurs among the mapped keys. -/
theorem mem_keys_of_dictHas {β : Type} (d : List (String × β)) (u : String)
    (h : dictHas d u = true) : u ∈ d.map Prod.fst := by
  induction d with
  | nil => simp [dictHas, dictGet?] at h
  | cons kv d ih =>
    obtain ⟨k2, v2⟩ := kv
    by_cases h2 : k2 = u
    · simp [h2]
    · rw [dictHas, dictGet?, if_neg h2] at h
      simp [ih h]

/-- One `ingest_symbol` call: it returns the deterministic uid
`symbol:<path>:<name>`, preserves well-formedness, and leaves the symbol uid
present in the index and in the durable `objects` relation. -/
theorem ingest_symbol_wf_has (st : KState) (now p n k : String)
    (props : List (String × PyVal)) (h : KWF st) :
    (ingest_symbol st now p n k props).1 = "symbol:" ++ p ++ ":" ++ n ∧
    KWF (ingest_symbol st now p n k props).2 ∧
    dictHas (ingest_symbol st now p n k props).2.objects
      ("symbol:" ++ p ++ ":" ++ n) = true ∧
    ("symbol:" ++ p ++ ":" ++ n) ∈
      (ingest_symbol st now p n k props).2.dbObjects.map ObjRow.uid := by
  obtain ⟨w1, has1, rows1, _, _⟩ := upsert_wf_has st
    ⟨"symbol:" ++ p ++ ":" ++ n, "symbol",
     dictUpdate [("name", .str n), ("file_path", .str p), ("symbol_type", .str k)] props,
     [], now⟩ h
  unfold ingest_symbol
  dsimp only
  refine ⟨rfl, ?_⟩
  by_cases hm : dictHas
      (upsert_object false st
        ⟨"symbol:" ++ p ++ ":" ++ n, "symbol",
         dictUpdate [("name", .str n), ("file_path", .str p), ("symbol_type", .str k)] props,
         [], now⟩).2.objects ("module:" ++ p) = true
  · rw [if_pos hm]
    obtain ⟨w3, hdb3, hobj3⟩ :=
      link_wf_has _ ("module:" ++ p) ("symbol:" ++ p ++ ":" ++ n) "defines" true w1
    refine ⟨w3, ?_, ?_⟩
    · rw [hobj3]
      exact has1
    · rw [hdb3]
      exact rows1
  · rw [if_neg hm]
    obtain ⟨w2, _, _, mono2, monoR2⟩ :=
      upsert_wf_has _ ⟨"module:" ++ p, "module", [("name", .str p)], [], now⟩ w1
    obtain ⟨w3, hdb3, hobj3⟩ :=
      link_wf_has _ ("module:" ++ p) ("symbol:" ++ p ++ ":" ++ n) "defines" true w2
    refine ⟨w3, ?_, ?_⟩
    · rw [hobj3]
      exact mono2 _ has1
    · rw [hdb3]
      exact monoR2 _ rows1

/-- C9. Calling `ingest_symbol` twice with identical arguments returns the
same uid `symbol:<path>:<name>` both times, and afterwards exactly one index
entry and exactly one durable `objects` row carry that uid: the second call
merges instead of duplicating. (`KWF` holds of any state built through the
kernel's operations; the durable uniqueness is SQLite's PRIMARY KEY.) -/
theorem c9_ingest_symbol_idempotent (st : KState) (now1 now2 p n k : String)
    (props : List (String × PyVal)) (h : KWF st) :
    (ingest_symbol st now1 p n k props).1 =
      (ingest_symbol (ingest_symbol st now1 p n k props).2 now2 p n k props).1 ∧
    (ingest_symbol st now1 p n k props).1 = "symbol:" ++ p ++ ":" ++ n ∧
    List.count ("symbol:" ++ p ++ ":" ++ n)
      ((ingest_symbol (ingest_symbol st now1 p n k props).2 now2 p n k props).2.objects.map
        Prod.fst) = 1 ∧
    List.count ("symbol:" ++ p ++ ":" ++ n)
      ((ingest_symbol (ingest_symbol st now1 p n k props).2 now2 p n k props).2.dbObjects.map
        ObjRow.uid) = 1 := by
  obtain ⟨e1, w1, _, _⟩ := ingest_symbol_wf_has st now1 p n k props h
  obtain ⟨e2, w2, has2, rows2⟩ :=
    ingest_symbol_wf_has (ingest_symbol st now1 p n k props).2 now2 p n k props w1
  refine ⟨by rw [e1, e2], e1, ?_, ?_⟩
  · exact List.count_eq_one_of_mem w2.1 (mem_keys_of_dictHas _ _ has2)
  · exact List.count_eq_one_of_mem w2.2 rows2

/-- C9 (witness). -/
theorem c9_ingest_symbol_idempotent_witness :
    (ingest_symbol (⟨[], [], []⟩ : KState) "t1" "billing.py" "process_payment"
      "function" []).1 = "symbol:" ++ "billing.py" ++ ":" ++ "process_payment" ∧
    List.count ("symbol:" ++ "billing.py" ++ ":" ++ "process_payment")
      ((ingest_symbol
        (ingest_symbol (⟨[], [], []⟩ : KState) "t1" "billing.py" "process_payment"
          "function" []).2 "t2" "billing.py" "process_payment" "function"
        []).2.objects.map Prod.fst) = 1 := by
  have H := c9_ingest_symbol_idempotent ⟨[], [], []⟩ "t1" "t2" "billing.py"
    "process_payment" "function" [] ⟨by simp, by simp⟩
  exact ⟨H.2.1, H.2.2.1⟩

/-! ### Claim C4: load behavior -/

/-- Setting a present key leaves the key list unchanged. -/
theorem keys_dictSet_present {β : Type} (d : List (String × β)) (k : String) (v : β)
    (h : dictHas d k = true) : (dictSet d k v).map Prod.fst = d.map Prod.fst := by
  induction d with
  | nil => simp [dictHas, dictGet?] at h
  | cons kv d ih =>
    obtain ⟨k2, v2⟩ := kv
    by_cases h2 : k2 = k
    · subst h2
      rw [dictSet, if_pos rfl]
      simp
    · rw [dictHas, dictGet?, if_neg h2] at h
      rw [dictSet, if_neg h2]
      simp [ih h]

/-- `loadLinks` never changes which keys the index holds, in order. -/
theorem loadLinks_keys (lrows : List (String × String × String))
    (idx : List (String × GraphObject)) :
    (loadLinks idx lrows).map Prod.fst = idx.map Prod.fst := by
  induction lrows generalizing idx with
  | nil => rfl
  | cons e lrows ih =>
    rw [loadLinks, List.foldl_cons]
    cases hget : dictGet? idx e.1
    · rw [← loadLinks]
      simp [hget, ih]
    · rw [← loadLinks]
      simp only [hget]
      rw [ih]
      exact keys_dictSet_present _ _ _ (by rw [dictHas, hget]; rfl)

/-- A head entry whose key no later row mentions is frozen by `loadObjects`. -/
theorem loadObjects_cons_frozen (rows : List ObjRow) (u : String) (w : GraphObject)
    (h : u ∉ rows.map ObjRow.uid) (X : List (String × GraphObject)) :
    loadObjects ((u, w) :: X) rows =
      (loadObjects X rows).map (fun l => (u, w) :: l) := by
  induction rows generalizing X with
  | nil => rfl
  | cons r rows ih =>
    have hu : u ≠ r.uid := by
      intro he
      exact h (by simp [he])
    cases hp : json_loads r.data with
    | none =>
      simp only [loadObjects, hp]
      rfl
    | some v =>
      cases v <;> simp only [loadObjects, hp] <;> try rfl
      simp only [dictSet, if_neg hu]
      exact ih (fun hm => h (by simp at hm ⊢; exact Or.inr hm)) _

/-- When every row parses as a JSON object and the uids are distinct,
`loadObjects` from an empty index succeeds and yields exactly one entry per
row, in row order. -/
theorem loadObjects_ok_keys (rows : List ObjRow)
    (hp : ∀ r ∈ rows, ∃ kvs, json_loads r.data = some (PyVal.dict kvs))
    (hn : (rows.map ObjRow.uid).Nodup) :
    ∃ J, loadObjects [] rows = Except.ok J ∧ J.map Prod.fst = rows.map ObjRow.uid := by
  induction rows with
  | nil => exact ⟨[], rfl, rfl⟩
  | cons r rows ih =>
    obtain ⟨kvs, hkvs⟩ := hp r (by simp)
    rw [List.map_cons, List.nodup_cons] at hn
    obtain ⟨J2, hJ2, hkeys⟩ := ih (fun r2 hr2 => hp r2 (by simp [hr2])) hn.2
    refine ⟨(r.uid, ⟨r.uid, r.type, kvs, [], r.created_at⟩) :: J2, ?_, by simp [hkeys]⟩
    simp only [loadObjects, hkvs]
    have e0 : dictSet ([] : List (String × GraphObject)) r.uid
        ⟨r.uid, r.type, kvs, [], r.created_at⟩ =
        [(r.uid, ⟨r.uid, r.type, kvs, [], r.created_at⟩)] := rfl
    rw [e0, loadObjects_cons_frozen rows r.uid _ hn.1 [], hJ2]
    rfl

set_option linter.unnecessarySeqFocus false in
/-- Re-running `loadObjects` over any index that holds exactly the row uids
(in row order) gives the same result as running it over the empty index:
every entry is overwritten in place by its row. -/
theorem loadObjects_eq_of_keys (rows : List ObjRow) (X : List (String × GraphObject))
    (hn : (rows.map ObjRow.uid).Nodup)
    (hk : X.map Prod.fst = rows.map ObjRow.uid) :
    loadObjects X rows = loadObjects [] rows := by
  induction rows generalizing X with
  | nil =>
    rw [List.map_nil] at hk
    rw [List.map_eq_nil_iff.mp hk]
  | cons r rows ih =>
    cases X with
    | nil => simp at hk
    | cons aw X2 =>
      obtain ⟨a, w⟩ := aw
      rw [List.map_cons, List.map_cons] at hk
      have ha : a = r.uid := by
        injection hk
      have hk2 : X2.map Prod.fst = rows.map ObjRow.uid := by
        injection hk
      subst ha
      rw [List.map_cons, List.nodup_cons] at hn
      cases hp : json_loads r.data with
      | none => simp [loadObjects, hp]
      | some v =>
        cases v <;> simp only [loadObjects, hp] <;> try rfl
        simp only [dictSet, eq_self_iff_true, if_true]
        rw [loadObjects_cons_frozen rows r.uid _ hn.1 X2,
          loadObjects_cons_frozen rows r.uid _ hn.1 [], ih X2 hn.2 hk2]

/-- C4 (counterexample). Claim: a stored record whose blob cannot be parsed
is skipped with a warning and the remaining records still load. In fact one
bad blob aborts the whole load — the parsable record after it is lost and
the error propagates. -/
theorem c4_counterexample :
    json_loads "not json" = Option.none ∧
    (∃ kvs, json_loads (dumps (.dict [("a", .int 1)])) = some (PyVal.dict kvs)) ∧
    graph_load [] [⟨"bad", "t", "not json", "c"⟩,
      ⟨"u2", "t", dumps (.dict [("a", .int 1)]), "c"⟩] [] = Except.error () := by
  exact ⟨rfl, ⟨[("a", .int 1)], rfl⟩, rfl⟩

/-- C4 (amended). An individual stored record whose property blob does not
parse makes the entire load raise (`json.loads` is not wrapped in any
try/except), aborting the load; when every stored record parses as a JSON
object (and uids are unique, as the PRIMARY KEY guarantees), the load is
total, and idempotent: running `_load` again on the already-loaded index
reproduces exactly the same in-memory index. -/
theorem c4_amended (rows : List ObjRow) (lrows : List (String × String × String))
    (hp : ∀ r ∈ rows, ∃ kvs, json_loads r.data = some (PyVal.dict kvs))
    (hn : (rows.map ObjRow.uid).Nodup) :
    ∃ idx1, graph_load [] rows lrows = Except.ok idx1 ∧
      graph_load idx1 rows lrows = Except.ok idx1 := by
  obtain ⟨J, hJ, hkeys⟩ := loadObjects_ok_keys rows hp hn
  refine ⟨loadLinks J lrows, ?_, ?_⟩
  · rw [graph_load, hJ]
  · rw [graph_load, loadObjects_eq_of_keys rows (loadLinks J lrows) hn
      (by rw [loadLinks_keys]; exact hkeys), hJ]

/-- C4 (witness). -/
theorem c4_amended_witness :
    ∃ idx1, graph_load [] [⟨"u", "t", dumps (.dict [("a", .int 1)]), "c"⟩]
        [("u", "v", "defines")] = Except.ok idx1 ∧
      graph_load idx1 [⟨"u", "t", dumps (.dict [("a", .int 1)]), "c"⟩]
        [("u", "v", "defines")] = Except.ok idx1 := by
  refine c4_amended _ _ ?_ (by simp)
  intro r hr
  rw [List.mem_singleton] at hr
  subst hr
  exact ⟨[("a", .int 1)], rfl⟩

/-- C7 (witness). -/
theorem c7_amended_witness :
    (dictGet? ((upsert_object false exSt1 exObj2).2.objects) "u").map
      GraphObject.created_at = some "t0" := by
  have h : dictGet? exSt1.objects exObj2.uid = some exObj1 := by
    rw [show exObj2.uid = "u" from rfl]
    rfl
  exact (c7_amended exSt1 exObj2 exObj1 h).1

/-! ### Claim C8: bounded breadth-first neighborhood -/

theorem dictHas_of_mem_keys {β : Type} (d : List (String × β)) (u : String)
    (h : u ∈ d.map Prod.fst) : dictHas d u = true := by
  induction d with
  | nil => simp at h
  | cons kv d ih =>
    obtain ⟨k2, v2⟩ := kv
    by_cases h2 : k2 = u
    · simp [dictHas, dictGet?, h2]
    · rw [List.map_cons, List.mem_cons] at h
      rcases h with h | h

      · exact absurd h.symm h2
      · rw [dictHas, dictGet?, if_neg h2]
        exact ih h

/-- The inner fold of the BFS loop only appends, and every appended cluster
or queue entry satisfies its invariant. -/
theorem bfs_fold_inv (objects : List (String × GraphObject)) (seed : String)
    (k cd : Nat) (o : GraphObject) (cu : String)
    (hreach : ReachN objects seed cd cu) (ho : dictGet? objects cu = some o)
    (hcd : cd < k) (links : List (String × String))
    (hsub : ∀ p ∈ links, p ∈ o.links) :
    ∀ cl q, (cl.map Prod.fst).Nodup →
      (∀ e ∈ cl, EntryOK objects seed k e) →
      (∀ qd ∈ q, QOK objects seed k qd) →
      ∃ extC extQ,
        (links.foldl (bfsStep objects cd) (cl, q)).1 = cl ++ extC ∧
        (links.foldl (bfsStep objects cd) (cl, q)).2 = q ++ extQ ∧
        ((cl ++ extC).map Prod.fst).Nodup ∧
        (∀ e ∈ cl ++ extC, EntryOK objects seed k e) ∧
        (∀ qd ∈ q ++ extQ, QOK objects seed k qd) := by
  induction links with
  | nil =>
    intro cl q h1 h2 h3
    refine ⟨[], [], by simp, by simp, ?_, ?_, ?_⟩
    · rw [List.append_nil]
      exact h1
    · rw [List.append_nil]
      exact h2
    · rw [List.append_nil]
      exact h3
  | cons p links ih =>
    intro cl q h1 h2 h3
    rw [List.foldl_cons]
    by_cases hin : dictHas cl p.1 = true
    · rw [show bfsStep objects cd (cl, q) p = (cl, q) from by
        simp [bfsStep, hin]]
      exact ih (fun p2 hp2 => hsub p2 (by simp [hp2])) cl q h1 h2 h3
    · cases hget : dictGet? objects p.1 with
      | none =>
        rw [show bfsStep objects cd (cl, q) p = (cl, q) from by
          simp [bfsStep, hin, hget]]
        exact ih (fun p2 hp2 => hsub p2 (by simp [hp2])) cl q h1 h2 h3
      | some nbObj =>
        rw [show bfsStep objects cd (cl, q) p =
            (cl ++ [(p.1, nbObj)], q ++ [(p.1, cd + 1)]) from by
          simp [bfsStep, hin, hget]]
        have hreach2 : ReachN objects seed (cd + 1) p.1 :=
          ReachN.step hreach ho (by simpa using hsub p (by simp)) (by
            rw [dictHas, hget]
            rfl)
        have h1b : ((cl ++ [(p.1, nbObj)]).map Prod.fst).Nodup := by
          rw [List.map_append, List.nodup_append]
          refine ⟨h1, by simp, ?_⟩
          intro a ha
          simp only [List.map_cons, List.map_nil, List.mem_singleton]
          intro he
          subst he
          exact hin (dictHas_of_mem_keys _ _ ha)
        have h2b : ∀ e ∈ cl ++ [(p.1, nbObj)], EntryOK objects seed k e := by
          intro e he
          rw [List.mem_append, List.mem_singleton] at he
          rcases he with he | he
          · exact h2 e he
          · subst he
            exact ⟨hget, cd + 1, hcd, hreach2⟩
        have h3b : ∀ qd ∈ q ++ [(p.1, cd + 1)], QOK objects seed k qd := by
          intro qd hqd
          rw [List.mem_append, List.mem_singleton] at hqd
          rcases hqd with hqd | hqd
          · exact h3 qd hqd
          · subst hqd
            exact ⟨hcd, hreach2⟩
        obtain ⟨extC, extQ, e1, e2, e3, e4, e5⟩ :=
          ih (fun p2 hp2 => hsub p2 (by simp [hp2])) (cl ++ [(p.1, nbObj)])
            (q ++ [(p.1, cd + 1)]) h1b h2b h3b
        refine ⟨[(p.1, nbObj)] ++ extC, [(p.1, cd + 1)] ++ extQ, ?_, ?_, ?_, ?_, ?_⟩
        · rw [e1, List.append_assoc]
        · rw [e2, List.append_assoc]
        · rw [← List.append_assoc]
          exact e3
        · rw [← List.append_assoc]
          exact e4
        · rw [← List.append_assoc]
          exact e5

/-- The BFS loop only appends to the cluster, preserves key uniqueness, and
every entry it ever adds stores its indexed object and lies within `k` hops
of the seed. -/
theorem bfsLoop_inv (objects : List (String × GraphObject)) (seed : String) (k : Nat) :
    ∀ fuel cl q, (cl.map Prod.fst).Nodup →
      (∀ e ∈ cl, EntryOK objects seed k e) →
      (∀ qd ∈ q, QOK objects seed k qd) →
      ∃ ext, bfsLoop objects k fuel cl q = cl ++ ext ∧
        ((cl ++ ext).map Prod.fst).Nodup ∧
        ∀ e ∈ cl ++ ext, EntryOK objects seed k e := by
  intro fuel
  induction fuel with
  | zero =>
    intro cl q h1 h2 _
    refine ⟨[], by simp [bfsLoop], ?_, ?_⟩
    · rw [List.append_nil]
      exact h1
    · rw [List.append_nil]
      exact h2
  | succ fuel ih =>
    intro cl q h1 h2 h3
    cases q with
    | nil =>
      refine ⟨[], by simp [bfsLoop], ?_, ?_⟩
      · rw [List.append_nil]
        exact h1
      · rw [List.append_nil]
        exact h2
    | cons qd rest =>
      obtain ⟨cu, cd⟩ := qd
      by_cases hk : k ≤ cd
      · rw [show bfsLoop objects k (fuel + 1) cl ((cu, cd) :: rest) =
            bfsLoop objects k fuel cl rest from by
          rw [bfsLoop, if_pos hk]]
        exact ih cl rest h1 h2 (fun qd2 hqd2 => h3 qd2 (by simp [hqd2]))
      · have hcd : cd < k := Nat.lt_of_not_le hk
        cases hget : dictGet? objects cu with
        | none =>
          rw [show bfsLoop objects k (fuel + 1) cl ((cu, cd) :: rest) =
              bfsLoop objects k fuel cl rest from by
            rw [bfsLoop, if_neg hk, hget]]
          exact ih cl rest h1 h2 (fun qd2 hqd2 => h3 qd2 (by simp [hqd2]))
        | some o =>
          have hstep : bfsLoop objects k (fuel + 1) cl ((cu, cd) :: rest) =
              bfsLoop objects k fuel
                (o.links.foldl (bfsStep objects cd) (cl, rest)).1
                (o.links.foldl (bfsStep objects cd) (cl, rest)).2 := by
            rw [bfsLoop, if_neg hk, hget]
          rw [hstep]
          obtain ⟨extC, extQ, e1, e2, e3, e4, e5⟩ :=
            bfs_fold_inv objects seed k cd o cu (h3 (cu, cd) (by simp)).2 hget hcd
              o.links (fun p hp => hp) cl rest h1 h2
              (fun qd2 hqd2 => h3 qd2 (by simp [hqd2]))
          rw [e1, e2]
          obtain ⟨ext2, f1, f2, f3⟩ := ih (cl ++ extC) (rest ++ extQ) e3 e4 e5
          refine ⟨extC ++ ext2, ?_, ?_, ?_⟩
          · rw [f1, List.append_assoc]
          · rw [← List.append_assoc]
            exact f2
          · rw [← List.append_assoc]
            exact f3

/-- C8. `get_neighborhood(uid, k)` returns the empty list when `uid` is
absent. Otherwise the returned list is the value column of a cluster whose
uids are pairwise distinct (each reachable object appears at most once), whose
first entry is the seed object, and each of whose entries is the indexed
object of a uid reachable from the seed in at most `k` link hops — so no
returned object lies more than `k` hops (in particular, more than shortest
distance `k`) from the seed; the listing order is the BFS discovery order of
the cluster, seed first. -/
theorem c8_get_neighborhood (st : KState) (uid : String) (k : Nat) :
    (dictGet? st.objects uid = Option.none → get_neighborhood st uid k = []) ∧
    (∀ o, dictGet? st.objects uid = some o →
      ∃ cl : List (String × GraphObject),
        get_neighborhood st uid k = cl.map Prod.snd ∧
        (cl.map Prod.fst).Nodup ∧
        cl.head? = some (uid, o) ∧
        ∀ e ∈ cl, dictGet? st.objects e.1 = some e.2 ∧
          ∃ d, d ≤ k ∧ ReachN st.objects uid d e.1) := by
  constructor
  · intro h
    rw [get_neighborhood, h]
  · intro o ho
    obtain ⟨ext, e1, e2, e3⟩ := bfsLoop_inv st.objects uid k
      (st.objects.length + 1) [(uid, o)] [(uid, 0)]
      (by simp)
      (by
        intro e he
        rw [List.mem_singleton] at he
        subst he
        exact ⟨ho, 0, Nat.zero_le k, ReachN.refl⟩)
      (by
        intro qd hqd
        rw [List.mem_singleton] at hqd
        subst hqd
        exact ⟨Nat.zero_le k, ReachN.refl⟩)
    refine ⟨(uid, o) :: ext, ?_, e2, rfl, e3⟩
    rw [get_neighborhood, ho]
    dsimp only
    rw [e1]
    rfl

/-- C8 (witness), on the spec's own scenario: a symbol, its module, and an
intent clarifying it; the depth-1 neighborhood of the symbol lists the symbol
first and includes all three uids exactly once. -/
theorem c8_get_neighborhood_witness :
    ∃ cl : List (String × GraphObject),
      get_neighborhood
        (ingest_intent
          (ingest_symbol (⟨[], [], []⟩ : KState) "t1" "billing.py" "process_payment"
            "function" []).2 "t2" "d1" "Limit is 10000"
          [("focus_symbol", .str "symbol:billing.py:process_payment")]).2
        "symbol:billing.py:process_payment" 1 = cl.map Prod.snd ∧
      (cl.map Prod.fst).Nodup ∧
      cl.head?.map Prod.fst = some "symbol:billing.py:process_payment" := by
  have H := (c8_get_neighborhood
    (ingest_intent
      (ingest_symbol (⟨[], [], []⟩ : KState) "t1" "billing.py" "process_payment"
        "function" []).2 "t2" "d1" "Limit is 10000"
      [("focus_symbol", .str "symbol:billing.py:process_payment")]).2
    "symbol:billing.py:process_payment" 1).2
  obtain ⟨cl, h1, h2, h3, _⟩ := H _ rfl
  exact ⟨cl, h1, h2, by rw [h3]; rfl⟩

/-! ### Claims C5 and C6: scrubber guarantees -/

theorem scrubChars_stages (l : List Char) :
    scrubChars l = if l = [] then [] else stage5 l := by
  rw [scrubChars]
  by_cases hl : l = []
  · rw [if_pos hl, if_pos hl]
  · rw [if_neg hl, if_neg hl]
    rw [stage5, stage4, stage3, stage2, stage1, DETECTORS]
    rw [List.foldl_cons, List.foldl_cons, List.foldl_cons, List.foldl_cons,
      List.foldl_cons, List.foldl_nil]

set_option maxHeartbeats 3200000 in
/-- C5 (counterexample). Claim: `scrub_text` is idempotent on every string.
On `"AKIA" ++ 20 × "A" ++ "1.2.3.4"` the AWS-key detector consumes only its
maximal 20-character quantifier, leaving `1.2.3.4` glued to the placeholder;
the substitution creates a fresh word boundary, so a second pass finds an
IPv4 match the first pass could not see, and scrubbing the output changes it
again — the placeholders themselves never match any detector, yet
idempotence fails. -/
theorem c5_counterexample :
    scrub_text ("AKIA" ++ String.mk (List.replicate 20 'A') ++ "1.2.3.4") =
      "[REDACTED_AWS_KEY]1.2.3.4" ∧
    scrub_text (scrub_text ("AKIA" ++ String.mk (List.replicate 20 'A') ++ "1.2.3.4")) =
      "[REDACTED_AWS_KEY][REDACTED_IP]" ∧
    ("[REDACTED_AWS_KEY][REDACTED_IP]" : String) ≠ "[REDACTED_AWS_KEY]1.2.3.4" := by
  exact ⟨rfl, rfl, by decide⟩

/-- A detector with no match leaves the text unchanged. -/
theorem applyDetector_no_match (pat : List RItem) (ph l : List Char)
    (h : findMatch pat none l = Option.none) : applyDetector pat ph l = l := by
  rw [applyDetector, h]
  rfl

/-- If no detector matches `l`, scrubbing leaves `l` unchanged. -/
theorem scrubChars_id_of_no_match (l : List Char)
    (h : ∀ d ∈ DETECTORS, findMatch d.1 none l = Option.none) : scrubChars l = l := by
  have h1 := h (emailPat, "[REDACTED_EMAIL]".data) (by unfold DETECTORS; simp)
  have h2 := h (ipPat, "[REDACTED_IP]".data) (by unfold DETECTORS; simp)
  have h3 := h (bearerPat, "[REDACTED_BEARER_TOKEN]".data) (by unfold DETECTORS; simp)
  have h4 := h (awsPat, "[REDACTED_AWS_KEY]".data) (by unfold DETECTORS; simp)
  have h5 := h (secretPat, "[REDACTED_GENERIC_SECRET]".data) (by unfold DETECTORS; simp)
  by_cases hl : l = []
  · rw [scrubChars, if_pos hl, hl]
  · rw [scrubChars_stages, if_neg hl, stage5, stage4, stage3, stage2, stage1]
    rw [applyDetector_no_match _ _ _ h1, applyDetector_no_match _ _ _ h2,
      applyDetector_no_match _ _ _ h3, applyDetector_no_match _ _ _ h4,
      applyDetector_no_match _ _ _ h5]

/-- C5 (amended). Every placeholder is a fixed point of `scrub_text` (the
placeholders never match any detector), and re-running `scrub_text` on its
own output is a no-op whenever no detector matches that output; but
`scrub_text` is not idempotent on all strings, because a substitution can
expose a fresh match in the surrounding text (see the counterexample). -/
theorem c5_amended :
    (∀ d ∈ DETECTORS, scrub_text (String.mk d.2) = String.mk d.2) ∧
    (∀ s : String, (∀ d ∈ DETECTORS, findMatch d.1 none (scrub_text s).data = Option.none) →
      scrub_text (scrub_text s) = scrub_text s) := by
  constructor
  · intro d hd
    fin_cases hd <;> rfl
  · intro s h
    show String.mk (scrubChars (scrub_text s).data) = scrub_text s
    rw [scrubChars_id_of_no_match _ h]

theorem CiW_length {w c : List Char} (h : CiW w c) : w.length = c.length :=
  List.Forall₂.length_eq h

theorem CiW_mem {w c : List Char} (h : CiW w c) :
    ∀ ch ∈ c, ∃ wc ∈ w, ciEq wc ch = true := by
  induction h with
  | nil => simp
  | cons hab _ ih =>
    intro ch hch
    rw [List.mem_cons] at hch
    rcases hch with rfl | hch
    · exact ⟨_, by simp, hab⟩
    · obtain ⟨wc, hwc, hci⟩ := ih ch hch
      exact ⟨wc, by simp [hwc], hci⟩

theorem stripCi_spec : ∀ (w l rest : List Char), stripCi w l = some rest →
    ∃ c, l = c ++ rest ∧ CiW w c := by
  intro w
  induction w with
  | nil =>
    intro l rest h
    rw [stripCi] at h
    exact ⟨[], by simpa using Option.some_inj.mp h, List.Forall₂.nil⟩
  | cons a w ih =>
    intro l rest h
    cases l with
    | nil => rw [stripCi] at h; cases h
    | cons x l2 =>
      rw [stripCi] at h
      by_cases hci : ciEq a x = true
      · rw [if_pos hci] at h
        obtain ⟨c2, hc2, hciw⟩ := ih l2 rest h
        exact ⟨x :: c2, by rw [hc2]; rfl, List.Forall₂.cons hci hciw⟩
      · rw [if_neg hci] at h
        cases h

theorem firstAlt_spec : ∀ (ws : List (List Char)) (l cw rest : List Char),
    firstAlt ws l = some (cw, rest) →
    ∃ w ∈ ws, l = cw ++ rest ∧ CiW w cw := by
  intro ws
  induction ws with
  | nil =>
    intro l cw rest h
    rw [firstAlt] at h
    cases h
  | cons w ws ih =>
    intro l cw rest h
    rw [firstAlt] at h
    cases hs : stripCi w l with
    | some rest2 =>
      simp only [hs, Option.some_inj, Prod.mk.injEq] at h
      obtain ⟨h1, h2⟩ := h
      obtain ⟨c1, hc1, hciw⟩ := stripCi_spec w l rest2 hs
      have hlen : l.take w.length = c1 := by
        rw [hc1, CiW_length hciw]
        exact List.take_left c1 rest2
      subst h2
      rw [hlen] at h1
      subst h1
      exact ⟨w, by simp, hc1, hciw⟩
    | none =>
      simp only [hs] at h
      obtain ⟨w2, hw2, h3, h4⟩ := ih l cw rest h
      exact ⟨w2, by simp [hw2], h3, h4⟩

theorem takeRun_append (p : Char → Bool) : ∀ l : List Char,
    takeRun p l ++ dropRun p l = l := by
  intro l
  induction l with
  | nil => rfl
  | cons c l ih =>
    by_cases hc : p c = true
    · rw [takeRun, dropRun, if_pos hc, if_pos hc]
      simpa using ih
    · rw [takeRun, dropRun, if_neg hc, if_neg hc]
      rfl

theorem takeRun_chars (p : Char → Bool) : ∀ l : List Char, ∀ ch ∈ takeRun p l,
    p ch = true := by
  intro l
  induction l with
  | nil => simp [takeRun]
  | cons c l ih =>
    by_cases hc : p c = true
    · rw [takeRun, if_pos hc]
      intro ch hch
      rcases List.mem_cons.mp hch with rfl | hch
      · exact hc
      · exact ih ch hch
    · rw [takeRun, if_neg hc]
      simp

/-- A successful item-sequence match consumes a prefix whose characters are
all among the pattern's possible characters. -/
theorem matchItems_split_chars : ∀ (pat : List RItem) (prev : Option Char)
    (l c r : List Char), matchItems pat prev l = some (c, r) →
    l = c ++ r ∧ ∀ ch ∈ c, possChars pat ch = true := by
  intro pat
  induction pat with
  | nil =>
    intro prev l c r h
    simp only [matchItems, Option.some_inj, Prod.mk.injEq] at h
    obtain ⟨h1, h2⟩ := h
    subst h1
    subst h2
    simp
  | cons it items ih =>
    intro prev l c r h
    cases it with
    | lit w =>
      simp only [matchItems] at h
      cases hs : stripCi w l with
      | none =>
        simp only [hs] at h
        exact Option.noConfusion h
      | some rest =>
        simp only [hs] at h
        cases hm : matchItems items (lastC prev (l.take w.length)) rest with
        | none =>
          simp only [hm] at h
          exact Option.noConfusion h
        | some cr =>
          obtain ⟨c2, r2⟩ := cr
          simp only [hm, Option.some_inj, Prod.mk.injEq] at h
          obtain ⟨h1, h2⟩ := h
          subst h1
          subst h2
          obtain ⟨c1, hc1, hciw⟩ := stripCi_spec w l rest hs
          have hlen : l.take w.length = c1 := by
            rw [hc1, CiW_length hciw]
            exact List.take_left c1 rest
          obtain ⟨hsplit, hchars⟩ := ih _ rest c2 r2 hm
          constructor
          · rw [hlen, hc1, hsplit, List.append_assoc]
          · intro ch hch
            rw [List.mem_append] at hch
            rw [possChars, List.any_cons]
            rcases hch with hch | hch
            · rw [hlen] at hch
              obtain ⟨wc, hwc, hci⟩ := CiW_mem hciw ch hch
              refine (Bool.or_eq_true _ _).mpr (Or.inl ?_)
              rw [possItem, List.any_eq_true]
              exact ⟨wc, hwc, hci⟩
            · exact (Bool.or_eq_true _ _).mpr (Or.inr (hchars ch hch))
    | alts ws =>
      simp only [matchItems] at h
      cases hs : firstAlt ws l with
      | none =>
        simp only [hs] at h
        exact Option.noConfusion h
      | some cw_rest =>
        obtain ⟨cw, rest⟩ := cw_rest
        simp only [hs] at h
        cases hm : matchItems items (lastC prev cw) rest with
        | none =>
          simp only [hm] at h
          exact Option.noConfusion h
        | some cr =>
          obtain ⟨c2, r2⟩ := cr
          simp only [hm, Option.some_inj, Prod.mk.injEq] at h
          obtain ⟨h1, h2⟩ := h
          subst h1
          subst h2
          obtain ⟨w2, hw2, hsplit2, hciw⟩ := firstAlt_spec ws l cw rest hs
          obtain ⟨hsplit, hchars⟩ := ih _ rest c2 r2 hm
          constructor
          · rw [hsplit2, hsplit, List.append_assoc]
          · intro ch hch
            rw [List.mem_append] at hch
            rw [possChars, List.any_cons]
            rcases hch with hch | hch
            · obtain ⟨wc, hwc, hci⟩ := CiW_mem hciw ch hch
              refine (Bool.or_eq_true _ _).mpr (Or.inl ?_)
              rw [possItem, List.any_eq_true]
              exact ⟨w2, hw2, List.any_eq_true.mpr ⟨wc, hwc, hci⟩⟩
            · exact (Bool.or_eq_true _ _).mpr (Or.inr (hchars ch hch))
    | cls p lo hi =>
      have step : ∀ (t : Nat) (c2 r2 : List Char),
          matchItems items (lastC prev (List.take t (takeRun p l)))
            (List.drop t (takeRun p l) ++ dropRun p l) = some (c2, r2) →
          c = List.take t (takeRun p l) ++ c2 → r = r2 →
          l = c ++ r ∧ ∀ ch ∈ c, possChars (RItem.cls p lo hi :: items) ch = true := by
        intro t c2 r2 hm hc hr
        subst hc
        subst hr
        obtain ⟨hsplit, hchars⟩ := ih _ _ c2 r hm
        constructor
        · have hl : l = List.take t (takeRun p l) ++ (List.drop t (takeRun p l) ++ dropRun p l) := by
            rw [← List.append_assoc, List.take_append_drop, takeRun_append]
          conv_lhs => rw [hl]
          rw [hsplit, List.append_assoc]
        · intro ch hch
          rw [List.mem_append] at hch
          rw [possChars, List.any_cons]
          rcases hch with hch | hch
          · refine (Bool.or_eq_true _ _).mpr (Or.inl ?_)
            rw [possItem]
            exact takeRun_chars p l ch (List.take_subset _ _ hch)
          · exact (Bool.or_eq_true _ _).mpr (Or.inr (hchars ch hch))
      cases hi with
      | none =>
        simp only [matchItems] at h
        by_cases hlo : (takeRun p l).length < lo
        · rw [if_pos hlo] at h
          exact Option.noConfusion h
        · rw [if_neg hlo] at h
          cases hm : matchItems items
              (lastC prev (List.take (takeRun p l).length (takeRun p l)))
              (List.drop (takeRun p l).length (takeRun p l) ++ dropRun p l) with
          | none =>
            rw [hm] at h
            exact Option.noConfusion h
          | some cr =>
            obtain ⟨c2, r2⟩ := cr
            rw [hm] at h
            simp only [Option.some_inj, Prod.mk.injEq] at h
            obtain ⟨h1, h2⟩ := h
            exact step _ c2 r2 hm h1.symm h2.symm
      | some hb =>
        simp only [matchItems] at h
        by_cases hlo : (takeRun p l).length < lo
        · rw [if_pos hlo] at h
          exact Option.noConfusion h
        · rw [if_neg hlo] at h
          cases hm : matchItems items
              (lastC prev (List.take (min (takeRun p l).length hb) (takeRun p l)))
              (List.drop (min (takeRun p l).length hb) (takeRun p l) ++ dropRun p l) with
          | none =>
            rw [hm] at h
            exact Option.noConfusion h
          | some cr =>
            obtain ⟨c2, r2⟩ := cr
            rw [hm] at h
            simp only [Option.some_inj, Prod.mk.injEq] at h
            obtain ⟨h1, h2⟩ := h
            exact step _ c2 r2 hm h1.symm h2.symm
    | wb =>
      simp only [matchItems] at h
      by_cases hb : boundaryB prev l.head? = true
      · rw [if_pos hb] at h
        obtain ⟨hsplit, hchars⟩ := ih prev l c r h
        refine ⟨hsplit, ?_⟩
        intro ch hch
        rw [possChars, List.any_cons]
        exact (Bool.or_eq_true _ _).mpr (Or.inr (hchars ch hch))
      · rw [if_neg hb] at h
        cases h

/-- A found match decomposes the scanned text, and its consumed span comes
from a successful `matchItems`. -/
theorem findMatch_split (pat : List RItem) : ∀ (l : List Char) (prev : Option Char)
    (sk c r : List Char), findMatch pat prev l = some (sk, c, r) →
    l = sk ++ c ++ r ∧ ∃ prev2, matchItems pat prev2 (c ++ r) = some (c, r) := by
  intro l
  induction l with
  | nil =>
    intro prev sk c r h
    rw [findMatch] at h
    cases hm : matchItems pat prev [] with
    | none =>
      simp only [hm] at h
      exact Option.noConfusion h
    | some cr =>
      obtain ⟨c2, r2⟩ := cr
      simp only [hm, Option.some_inj, Prod.mk.injEq] at h
      obtain ⟨h1, h2, h3⟩ := h
      subst h1
      subst h2
      subst h3
      have hsp := (matchItems_split_chars pat prev [] c2 r2 hm).1
      refine ⟨by simpa using hsp, prev, ?_⟩
      rw [← hsp]
      exact hm
  | cons x l2 ih =>
    intro prev sk c r h
    rw [findMatch] at h
    cases hm : matchItems pat prev (x :: l2) with
    | some cr =>
      obtain ⟨c2, r2⟩ := cr
      simp only [hm, Option.some_inj, Prod.mk.injEq] at h
      obtain ⟨h1, h2, h3⟩ := h
      subst h1
      subst h2
      subst h3
      have hsp := (matchItems_split_chars pat prev (x :: l2) c2 r2 hm).1
      refine ⟨by simpa using hsp, prev, ?_⟩
      rw [← hsp]
      exact hm
    | none =>
      simp only [hm] at h
      cases hf : findMatch pat (some x) l2 with
      | none =>
        simp only [hf] at h
        exact Option.noConfusion h
      | some scr =>
        obtain ⟨sk2, c2, r2⟩ := scr
        simp only [hf, Option.some_inj, Prod.mk.injEq] at h
        obtain ⟨h1, h2, h3⟩ := h
        subst h1
        subst h2
        subst h3
        obtain ⟨hsp, prev2, hm2⟩ := ih (some x) sk2 c2 r2 hf
        exact ⟨by simp [hsp, List.append_assoc], prev2, hm2⟩

theorem occurs_append_left (x : List Char) {w l : List Char} (h : Occurs w l) :
    Occurs w (x ++ l) := by
  obtain ⟨u, v, rfl⟩ := h
  exact ⟨x ++ u, v, by simp [List.append_assoc]⟩

theorem occurs_append_right (y : List Char) {w l : List Char} (h : Occurs w l) :
    Occurs w (l ++ y) := by
  obtain ⟨u, v, rfl⟩ := h
  exact ⟨u, v ++ y, by simp [List.append_assoc]⟩

theorem occurs_trans {a b c : List Char} (h1 : Occurs a b) (h2 : Occurs b c) :
    Occurs a c := by
  obtain ⟨u, v, rfl⟩ := h1
  obtain ⟨u2, v2, rfl⟩ := h2
  exact ⟨u2 ++ u, v ++ v2, by simp [List.append_assoc]⟩

theorem mem_of_occurs {w l : List Char} (h : Occurs w l) : ∀ ch ∈ w, ch ∈ l := by
  obtain ⟨u, v, rfl⟩ := h
  intro ch hch
  simp [hch]

/-- A successful match of `it :: items` splits its consumed span into the
head item's consumption and a successful tail match. -/
theorem matchItems_cons_decomp (it : RItem) (items : List RItem) (prev : Option Char)
    (l c r : List Char) (h : matchItems (it :: items) prev l = some (c, r)) :
    ∃ c1 c2 rest prev2, c = c1 ++ c2 ∧ itemConsumed it c1 ∧
      matchItems items prev2 rest = some (c2, r) := by
  cases it with
  | lit w =>
    simp only [matchItems] at h
    cases hs : stripCi w l with
    | none =>
      simp only [hs] at h
      exact Option.noConfusion h
    | some rest =>
      simp only [hs] at h
      cases hm : matchItems items (lastC prev (l.take w.length)) rest with
      | none =>
        simp only [hm] at h
        exact Option.noConfusion h
      | some cr =>
        obtain ⟨c2, r2⟩ := cr
        simp only [hm, Option.some_inj, Prod.mk.injEq] at h
        obtain ⟨h1, h2⟩ := h
        subst h1
        subst h2
        obtain ⟨c1, hc1, hciw⟩ := stripCi_spec w l rest hs
        have hlen : l.take w.length = c1 := by
          rw [hc1, CiW_length hciw]
          exact List.take_left c1 rest
        rw [hlen] at hm ⊢
        exact ⟨c1, c2, rest, _, rfl, hciw, hm⟩
  | alts ws =>
    simp only [matchItems] at h
    cases hs : firstAlt ws l with
    | none =>
      simp only [hs] at h
      exact Option.noConfusion h
    | some cw_rest =>
      obtain ⟨cw, rest⟩ := cw_rest
      simp only [hs] at h
      cases hm : matchItems items (lastC prev cw) rest with
      | none =>
        simp only [hm] at h
        exact Option.noConfusion h
      | some cr =>
        obtain ⟨c2, r2⟩ := cr
        simp only [hm, Option.some_inj, Prod.mk.injEq] at h
        obtain ⟨h1, h2⟩ := h
        subst h1
        subst h2
        obtain ⟨w2, hw2, _, hciw⟩ := firstAlt_spec ws l cw rest hs
        exact ⟨cw, c2, rest, _, rfl, ⟨w2, hw2, hciw⟩, hm⟩
  | cls p lo hi =>
    cases hi with
    | none =>
      simp only [matchItems] at h
      by_cases hlo : (takeRun p l).length < lo
      · rw [if_pos hlo] at h
        exact Option.noConfusion h
      · rw [if_neg hlo] at h
        cases hm : matchItems items
            (lastC prev (List.take (takeRun p l).length (takeRun p l)))
            (List.drop (takeRun p l).length (takeRun p l) ++ dropRun p l) with
        | none =>
          rw [hm] at h
          exact Option.noConfusion h
        | some cr =>
          obtain ⟨c2, r2⟩ := cr
          rw [hm] at h
          simp only [Option.some_inj, Prod.mk.injEq] at h
          obtain ⟨h1, h2⟩ := h
          subst h2
          refine ⟨List.take (takeRun p l).length (takeRun p l), c2, _, _, h1.symm, ⟨?_, ?_⟩, hm⟩
          · intro ch hch
            exact takeRun_chars p l ch (List.take_subset _ _ hch)
          · show min lo lo ≤ (List.take (takeRun p l).length (takeRun p l)).length
            have hlt : (List.take (takeRun p l).length (takeRun p l)).length =
                (takeRun p l).length := by
              simp
            rw [hlt]
            omega
    | some hb =>
      simp only [matchItems] at h
      by_cases hlo : (takeRun p l).length < lo
      · rw [if_pos hlo] at h
        exact Option.noConfusion h
      · rw [if_neg hlo] at h
        cases hm : matchItems items
            (lastC prev (List.take (min (takeRun p l).length hb) (takeRun p l)))
            (List.drop (min (takeRun p l).length hb) (takeRun p l) ++ dropRun p l) with
        | none =>
          rw [hm] at h
          exact Option.noConfusion h
        | some cr =>
          obtain ⟨c2, r2⟩ := cr
          rw [hm] at h
          simp only [Option.some_inj, Prod.mk.injEq] at h
          obtain ⟨h1, h2⟩ := h
          subst h2
          refine ⟨List.take (min (takeRun p l).length hb) (takeRun p l), c2, _, _,
            h1.symm, ⟨?_, ?_⟩, hm⟩
          · intro ch hch
            exact takeRun_chars p l ch (List.take_subset _ _ hch)
          · show min lo hb ≤ (List.take (min (takeRun p l).length hb) (takeRun p l)).length
            have hlt : (List.take (min (takeRun p l).length hb) (takeRun p l)).length =
                min (min (takeRun p l).length hb) (takeRun p l).length := by
              simp
            rw [hlt]
            omega
  | wb =>
    simp only [matchItems] at h
    by_cases hbb : boundaryB prev l.head? = true
    · rw [if_pos hbb] at h
      exact ⟨[], c, l, prev, rfl, rfl, h⟩
    · rw [if_neg hbb] at h
      exact Option.noConfusion h

/-- Every item of a successfully matched pattern consumed a contiguous piece
of the consumed span. -/
theorem matchItems_mem_consumed : ∀ (pat : List RItem) (it : RItem), it ∈ pat →
    ∀ (prev : Option Char) (l c r : List Char), matchItems pat prev l = some (c, r) →
    ∃ c1, itemConsumed it c1 ∧ Occurs c1 c := by
  intro pat
  induction pat with
  | nil => simp
  | cons it0 items ih =>
    intro it hmem prev l c r h
    obtain ⟨c1, c2, rest, prev2, hc, hcons, hm2⟩ :=
      matchItems_cons_decomp it0 items prev l c r h
    rcases List.mem_cons.mp hmem with rfl | hmem2
    · exact ⟨c1, hcons, [], c2, by rw [hc]; rfl⟩
    · obtain ⟨c1b, hconsb, hoccb⟩ := ih it hmem2 prev2 rest c2 r hm2
      exact ⟨c1b, hconsb, by rw [hc]; exact occurs_append_left c1 hoccb⟩

theorem ciPrefB_complete : ∀ {w w2 : List Char}, CiW w w2 → ∀ (v : List Char),
    ciPrefB w (w2 ++ v) = true := by
  intro w w2 h
  induction h with
  | nil =>
    intro v
    rfl
  | cons hab _ ih =>
    intro v
    rw [List.cons_append, ciPrefB, hab, ih v]
    rfl

theorem ciSegB_complete : ∀ (P w w2 : List Char), CiW w w2 → Occurs w2 P →
    ciSegB w P = true := by
  intro P w w2 hciw hocc
  obtain ⟨u, v, rfl⟩ := hocc
  induction u with
  | nil =>
    cases hw2 : w2 with
    | nil =>
      subst hw2
      cases hciw
      cases v with
      | nil => rfl
      | cons x l => rw [List.nil_append, List.nil_append, ciSegB, ciPrefB]; rfl
    | cons x l =>
      subst hw2
      rw [List.nil_append, List.cons_append, ciSegB, ← List.cons_append,
        ciPrefB_complete hciw v]
      rfl
  | cons x u ih =>
    rw [List.cons_append, List.cons_append, ciSegB, ih]
    rw [Bool.or_true]

/-- A nonempty suffix of a list ending in `']'` contains `']'`. -/
theorem close_bracket_mem : ∀ (cpre L : List Char) (y : Char) (p2 : List Char),
    L ++ [']'] = cpre ++ (y :: p2) → ']' ∈ y :: p2 := by
  intro cpre
  induction cpre with
  | nil =>
    intro L y p2 h
    rw [List.nil_append] at h
    rw [← h]
    simp
  | cons a cpre ih =>
    intro L y p2 h
    cases L with
    | nil =>
      rw [List.nil_append, List.cons_append] at h
      have h2 := List.tail_eq_of_cons_eq h
      have hlen := congrArg List.length h2
      rw [List.length_nil, List.length_append, List.length_cons] at hlen
      omega
    | cons b L2 =>
      rw [List.cons_append, List.cons_append] at h
      exact ih L2 y p2 (List.tail_eq_of_cons_eq h)

/-- Replacing every match of `pat` by `ph` preserves every occurrence of a
bracketed placeholder `P` that no match span can touch: the spans consume no
bracket characters and never occur inside `P` itself. -/
theorem subAll_pres_occurs (pat : List RItem) (ph mid P : List Char)
    (hP : P = ('[' :: mid) ++ [']'])
    (hA1 : possChars pat '[' = false) (hA2 : possChars pat ']' = false)
    (hB : ∀ (prev2 : Option Char) (l2 c r : List Char),
      matchItems pat prev2 l2 = some (c, r) → ¬ Occurs c P) :
    ∀ (fuel : Nat) (prev : Option Char) (l : List Char), Occurs P l →
      Occurs P (subAllF fuel pat ph prev l) := by
  intro fuel
  induction fuel with
  | zero =>
    intro prev l h
    rw [subAllF]
    exact h
  | succ f ih =>
    intro prev l hOcc
    cases hf : findMatch pat prev l with
    | none =>
      rw [subAllF, hf]
      exact hOcc
    | some scr =>
      obtain ⟨s, c, r⟩ := scr
      rw [subAllF, hf]
      show Occurs P (s ++ ph ++ subAllF f pat ph (lastC (lastC prev s) c) r)
      obtain ⟨hl, prev2, hm⟩ := findMatch_split pat l prev s c r hf
      have hchars := (matchItems_split_chars pat prev2 (c ++ r) c r hm).2
      have hnotocc := hB prev2 (c ++ r) c r hm
      obtain ⟨u, v, hluv⟩ := hOcc
      have heq : s ++ (c ++ r) = u ++ (P ++ v) := by
        rw [← List.append_assoc, ← List.append_assoc, ← hl, hluv]
      rcases List.append_eq_append_iff.mp heq with ⟨a1, ha1, ha2⟩ | ⟨c1, hc1, hc2⟩
      · rcases List.append_eq_append_iff.mp ha2 with ⟨b1, hb1, hb2⟩ | ⟨c2, hcc1, hcc2⟩
        · have hr : Occurs P r := ⟨b1, v, by rw [hb2, List.append_assoc]⟩
          exact occurs_append_left (s ++ ph) (ih _ r hr)
        · cases c2 with
          | nil =>
            have hr : Occurs P r := ⟨[], v, by rw [List.nil_append] at hcc2; rw [← hcc2]; simp⟩
            exact occurs_append_left (s ++ ph) (ih _ r hr)
          | cons x c2t =>
            exfalso
            rw [hP] at hcc2
            have hx2 : x = '[' ∧ c2t ++ r = mid ++ ']' :: v := by simpa using hcc2.symm
            have hxc : x ∈ c := by
              rw [hcc1]
              simp
            have := hchars x hxc
            rw [hx2.1, hA1] at this
            exact Bool.noConfusion this
      · rcases List.append_eq_append_iff.mp hc2 with ⟨a2, haa1, haa2⟩ | ⟨p2, hpp1, hpp2⟩
        · have hs : Occurs P s := ⟨u, a2, by rw [hc1, haa1, List.append_assoc]⟩
          exact occurs_append_right _ (occurs_append_right ph hs)
        · rcases List.append_eq_append_iff.mp hpp2 with ⟨q, hq1, hq2⟩ | ⟨q, hq1, hq2⟩
          · exact absurd ⟨c1, q, by rw [hpp1, hq1, List.append_assoc]⟩ hnotocc
          · cases p2 with
            | nil =>
              have hs : Occurs P s := ⟨u, [], by rw [hc1, hpp1]; simp⟩
              exact occurs_append_right _ (occurs_append_right ph hs)
            | cons y p2t =>
              exfalso
              have hcl : ']' ∈ y :: p2t := by
                refine close_bracket_mem c1 ('[' :: mid) y p2t ?_
                rw [← hP]
                exact hpp1
              have hclc : (']' : Char) ∈ c := by
                rw [hq1]
                exact List.mem_append_left q hcl
              have := hchars ']' hclc
              rw [hA2] at this
              exact Bool.noConfusion this

theorem subAll_has_ph (pat : List RItem) (ph : List Char) (fuel : Nat)
    (prev : Option Char) (l s c r : List Char)
    (h : findMatch pat prev l = some (s, c, r)) :
    Occurs ph (subAllF (fuel + 1) pat ph prev l) := by
  rw [subAllF, h]
  show Occurs ph (s ++ ph ++ subAllF fuel pat ph (lastC (lastC prev s) c) r)
  exact ⟨s, subAllF fuel pat ph (lastC (lastC prev s) c) r, rfl⟩

/-- When a detector fires, its substitution pass plants the placeholder. -/
theorem applyDetector_has_ph (pat : List RItem) (ph l : List Char)
    (h : (findMatch pat none l).isSome = true) : Occurs ph (applyDetector pat ph l) := by
  rw [applyDetector, if_pos h]
  obtain ⟨⟨s, c, r⟩, hf⟩ := Option.isSome_iff_exists.mp h
  exact subAll_has_ph pat ph l.length none l s c r hf

/-- A detector pass preserves occurrences of an untouchable placeholder. -/
theorem applyDetector_pres_occurs (pat : List RItem) (ph mid P : List Char)
    (hP : P = ('[' :: mid) ++ [']'])
    (hA1 : possChars pat '[' = false) (hA2 : possChars pat ']' = false)
    (hB : ∀ (prev2 : Option Char) (l2 c r : List Char),
      matchItems pat prev2 l2 = some (c, r) → ¬ Occurs c P)
    (l : List Char) (h : Occurs P l) : Occurs P (applyDetector pat ph l) := by
  rw [applyDetector]
  by_cases hs : (findMatch pat none l).isSome = true
  · rw [if_pos hs]
    exact subAll_pres_occurs pat ph mid P hP hA1 hA2 hB (l.length + 1) none l h
  · rw [if_neg hs]
    exact h

/-- A span consumed by a pattern with a mandatory character class cannot
occur inside a string free of that class. -/
theorem not_occurs_of_cls_need (pat : List RItem) (P : List Char) (p : Char → Bool)
    (lo : Nat) (hi : Option Nat) (hitem : RItem.cls p lo hi ∈ pat)
    (hmin : 1 ≤ min lo (hi.getD lo))
    (hPfree : P.all (fun x => ! p x) = true) :
    ∀ (prev2 : Option Char) (l2 c r : List Char),
      matchItems pat prev2 l2 = some (c, r) → ¬ Occurs c P := by
  intro prev2 l2 c r hm hocc
  obtain ⟨c1, hcons, hocc1⟩ := matchItems_mem_consumed pat _ hitem prev2 l2 c r hm
  obtain ⟨hchars, hlen⟩ := hcons
  cases c1 with
  | nil =>
    rw [List.length_nil] at hlen
    omega
  | cons ch c1t =>
    have hch_in_c : ch ∈ c := mem_of_occurs hocc1 ch (by simp)
    have hch_in_P : ch ∈ P := mem_of_occurs hocc ch hch_in_c
    have hfree := (List.all_eq_true.mp hPfree) ch hch_in_P
    have hp := hchars ch (by simp)
    rw [hp] at hfree
    simp at hfree

/-- A span consumed by a pattern with a mandatory literal cannot occur inside
a string that lacks the literal as a case-insensitive substring. -/
theorem not_occurs_of_lit_seg (pat : List RItem) (P : List Char) (w : List Char)
    (hitem : RItem.lit w ∈ pat) (hseg : ciSegB w P = false) :
    ∀ (prev2 : Option Char) (l2 c r : List Char),
      matchItems pat prev2 l2 = some (c, r) → ¬ Occurs c P := by
  intro prev2 l2 c r hm hocc
  obtain ⟨c1, hciw, hocc1⟩ := matchItems_mem_consumed pat _ hitem prev2 l2 c r hm
  have hall : ciSegB w P = true := ciSegB_complete P w c1 hciw (occurs_trans hocc1 hocc)
  rw [hseg] at hall
  exact Bool.noConfusion hall

/-- The IPv4 pass cannot disturb a digit-free placeholder. -/
theorem stage2_pres (mid P : List Char) (hP : P = ('[' :: mid) ++ [']'])
    (hA1 : possChars ipPat '[' = false) (hA2 : possChars ipPat ']' = false)
    (hPfree : P.all (fun x => ! isDigitC x) = true) (l : List Char)
    (h : Occurs P (stage1 l)) : Occurs P (stage2 l) := by
  rw [stage2]
  exact applyDetector_pres_occurs ipPat _ mid P hP hA1 hA2
    (not_occurs_of_cls_need ipPat P isDigitC 1 (some 3)
      (by rw [ipPat]; simp) (by decide) hPfree) _ h

/-- The bearer-token pass cannot disturb a whitespace-free placeholder. -/
theorem stage3_pres (mid P : List Char) (hP : P = ('[' :: mid) ++ [']'])
    (hA1 : possChars bearerPat '[' = false) (hA2 : possChars bearerPat ']' = false)
    (hPfree : P.all (fun x => ! isSpaceC x) = true) (l : List Char)
    (h : Occurs P (stage2 l)) : Occurs P (stage3 l) := by
  rw [stage3]
  exact applyDetector_pres_occurs bearerPat _ mid P hP hA1 hA2
    (not_occurs_of_cls_need bearerPat P isSpaceC 1 none
      (by rw [bearerPat]; simp) (by decide) hPfree) _ h

/-- The AWS-key pass cannot disturb a placeholder lacking `AKIA`. -/
theorem stage4_pres (mid P : List Char) (hP : P = ('[' :: mid) ++ [']'])
    (hA1 : possChars awsPat '[' = false) (hA2 : possChars awsPat ']' = false)
    (hseg : ciSegB ('A' :: 'K' :: 'I' :: 'A' :: []) P = false) (l : List Char)
    (h : Occurs P (stage3 l)) : Occurs P (stage4 l) := by
  rw [stage4]
  exact applyDetector_pres_occurs awsPat _ mid P hP hA1 hA2
    (not_occurs_of_lit_seg awsPat P ('A' :: 'K' :: 'I' :: 'A' :: [])
      (by rw [awsPat]; simp) hseg) _ h

/-- The generic-secret pass cannot disturb a placeholder without `:` or `=`. -/
theorem stage5_pres (mid P : List Char) (hP : P = ('[' :: mid) ++ [']'])
    (hA1 : possChars secretPat '[' = false) (hA2 : possChars secretPat ']' = false)
    (hPfree : P.all (fun x => ! colonEqC x) = true) (l : List Char)
    (h : Occurs P (stage4 l)) : Occurs P (stage5 l) := by
  rw [stage5]
  exact applyDetector_pres_occurs secretPat _ mid P hP hA1 hA2
    (not_occurs_of_cls_need secretPat P colonEqC 1 (some 1)
      (by rw [secretPat]; simp) (by decide) hPfree) _ h

set_option maxHeartbeats 1600000 in
/-- C6 (counterexample). Claim: the output contains zero occurrences of any
raw matched substring. On `"1.2.3.4 11.2.3.4x"` the IPv4 detector matches
(exactly) the leading `1.2.3.4` and replaces it, but the same character
sequence also occurs inside `11.2.3.4x`, where the word-boundary anchors
block a match — so the raw matched substring `1.2.3.4` survives verbatim in
the scrubbed output. -/
theorem c6_counterexample :
    scrub_text "1.2.3.4 11.2.3.4x" = "[REDACTED_IP] 11.2.3.4x" ∧
    findMatch ipPat none "1.2.3.4 11.2.3.4x".data =
      some ([], "1.2.3.4".data, " 11.2.3.4x".data) ∧
    Occurs "1.2.3.4".data "[REDACTED_IP] 11.2.3.4x".data := by
  refine ⟨rfl, rfl, "[REDACTED_IP] 1".data, "x".data, by decide⟩

set_option maxHeartbeats 1600000 in
/-- C6 (amended). What does hold: whenever a detector fires — its `findall`
on the text as transformed by the prior detectors is non-empty — the final
output of `scrub_text` contains at least one occurrence of that detector's
placeholder `[REDACTED_<NAME>]`. (The zero-occurrences half of the claim is
refuted by the counterexample.) -/
theorem c6_amended (s : String) :
    ((findMatch emailPat none s.data).isSome = true →
      Occurs "[REDACTED_EMAIL]".data (scrub_text s).data) ∧
    ((findMatch ipPat none (stage1 s.data)).isSome = true →
      Occurs "[REDACTED_IP]".data (scrub_text s).data) ∧
    ((findMatch bearerPat none (stage2 s.data)).isSome = true →
      Occurs "[REDACTED_BEARER_TOKEN]".data (scrub_text s).data) ∧
    ((findMatch awsPat none (stage3 s.data)).isSome = true →
      Occurs "[REDACTED_AWS_KEY]".data (scrub_text s).data) ∧
    ((findMatch secretPat none (stage4 s.data)).isSome = true →
      Occurs "[REDACTED_GENERIC_SECRET]".data (scrub_text s).data) := by
  by_cases hnil : s.data = []
  · rw [show (scrub_text s).data = scrubChars s.data from rfl, hnil]
    refine ⟨?_, ?_, ?_, ?_, ?_⟩ <;> intro h <;> exact absurd h (by decide)
  · have hsc : (scrub_text s).data = stage5 s.data := by
      show scrubChars s.data = _
      rw [scrubChars_stages, if_neg hnil]
    rw [hsc]
    refine ⟨?_, ?_, ?_, ?_, ?_⟩
    · intro h
      refine stage5_pres "REDACTED_EMAIL".data _ rfl (by decide) (by decide) (by decide)
        s.data ?_
      refine stage4_pres "REDACTED_EMAIL".data _ rfl (by decide) (by decide) (by decide)
        s.data ?_
      refine stage3_pres "REDACTED_EMAIL".data _ rfl (by decide) (by decide) (by decide)
        s.data ?_
      refine stage2_pres "REDACTED_EMAIL".data _ rfl (by decide) (by decide) (by decide)
        s.data ?_
      rw [stage1]
      exact applyDetector_has_ph emailPat _ s.data h
    · intro h
      refine stage5_pres "REDACTED_IP".data _ rfl (by decide) (by decide) (by decide)
        s.data ?_
      refine stage4_pres "REDACTED_IP".data _ rfl (by decide) (by decide) (by decide)
        s.data ?_
      refine stage3_pres "REDACTED_IP".data _ rfl (by decide) (by decide) (by decide)
        s.data ?_
      rw [stage2]
      exact applyDetector_has_ph ipPat _ (stage1 s.data) h
    · intro h
      refine stage5_pres "REDACTED_BEARER_TOKEN".data _ rfl (by decide) (by decide)
        (by decide) s.data ?_
      refine stage4_pres "REDACTED_BEARER_TOKEN".data _ rfl (by decide) (by decide)
        (by decide) s.data ?_
      rw [stage3]
      exact applyDetector_has_ph bearerPat _ (stage2 s.data) h
    · intro h
      refine stage5_pres "REDACTED_AWS_KEY".data _ rfl (by decide) (by decide) (by decide)
        s.data ?_
      rw [stage4]
      exact applyDetector_has_ph awsPat _ (stage3 s.data) h
    · intro h
      rw [stage5]
      exact applyDetector_has_ph secretPat _ (stage4 s.data) h

set_option maxHeartbeats 1600000 in
/-- C6 (witness). -/
theorem c6_amended_witness :
    Occurs "[REDACTED_EMAIL]".data (scrub_text "contact a@b.com").data :=
  (c6_amended "contact a@b.com").1 (by decide)

set_option maxHeartbeats 3200000 in
/-- C5 (witness). -/
theorem c5_amended_witness :
    scrub_text (String.mk ("[REDACTED_EMAIL]".data)) =
      String.mk ("[REDACTED_EMAIL]".data) ∧
    scrub_text (scrub_text "reach me at a@b.com") = scrub_text "reach me at a@b.com" := by
  constructor
  · exact c5_amended.1 (emailPat, "[REDACTED_EMAIL]".data) (by unfold DETECTORS; simp)
  · refine c5_amended.2 "reach me at a@b.com" ?_
    intro d hd
    fin_cases hd <;> rfl

end Fabric
